import Mathlib

/-!
# Tiny_LLama demo (`demo/main_qwen3.cpp`): output filter, prompt rendering, generation loop

A shallow embedding of the functions `filter_think_tags`, `generate`, `fill_template` and
`build_conversation` of `demo/main_qwen3.cpp` and of the session loop of `main` with its
history bookkeeping, followed by theorems about them.

A `std::string` is modelled as the list of its `char` units (`Str`).  The sentinel value
`std::string::npos` is modelled by `none`.
-/

namespace TinyLLama

/-- A `std::string`, as the list of its characters. -/
abbrev Str := List Char

/-- The literal `"<think>"` (7 characters). -/
def THINK_OPEN : Str := "<think>".toList

/-- The literal `"</think>"` (8 characters). -/
def THINK_CLOSE : Str := "</think>".toList

/-- The character set `" \n\r\t"` of line 27. -/
def WHITESPACE : Str := " \n\r\t".toList

/-- `s.find(pat)`: the least index at which `pat` occurs in `s`, `none` for `npos`. -/
def find (pat : Str) : Str → Option Nat
  | [] => if pat.isPrefixOf [] then some 0 else none
  | c :: cs =>
    if pat.isPrefixOf (c :: cs) then some 0
    else (find pat cs).map (fun i => i + 1)

/-- `s.find(pat, pos)`: the least index `≥ pos` at which `pat` occurs in `s`. -/
def find_from (pat s : Str) (pos : Nat) : Option Nat :=
  if pos ≤ s.length then (find pat (s.drop pos)).map (fun i => i + pos) else none

/-- `s.erase(pos, n)`: removes the `n` characters starting at index `pos` (fewer when the
string ends before). -/
def erase (s : Str) (pos n : Nat) : Str :=
  s.take pos ++ s.drop (pos + n)

/-- `s.find_first_not_of(set)`: the index of the first character of `s` that is not in
`set`, `none` for `npos`. -/
def find_first_not_of (set : Str) : Str → Option Nat
  | [] => none
  | c :: cs =>
    if set.contains c then (find_first_not_of set cs).map (fun i => i + 1) else some 0

/-- `s.substr(pos)`: the suffix of `s` from index `pos`. -/
def substr (s : Str) (pos : Nat) : Str := s.drop pos

/-- The body of the `while` loop of `filter_think_tags` (lines 15-23) for a string in
which `"<think>"` was found at `think_start`. -/
def erase_think (result : Str) (think_start : Nat) : Str :=
  match find_from THINK_CLOSE result think_start with
  | some think_end => erase result think_start (think_end - think_start + 8)
  | none => erase result think_start 7

/-- The `while (think_start != npos)` loop of `filter_think_tags` (lines 13-24), run for
at most `fuel` iterations; `none` when the iterations are used up before the loop ends. -/
def think_loop : Nat → Str → Option Str
  | 0, _ => none
  | fuel + 1, result =>
    match find THINK_OPEN result with
    | none => some result
    | some think_start => think_loop fuel (erase_think result think_start)

/-- Lines 26-30 of `filter_think_tags`: drop the leading whitespace when the string has a
character that is not whitespace. -/
def trim_leading (result : Str) : Str :=
  match find_first_not_of WHITESPACE result with
  | some first_non_space => substr result first_non_space
  | none => result

/-- The function `filter_think_tags` with a bound on the loop iterations. -/
def filter_think_tags_fuel (fuel : Nat) (text : Str) : Option Str :=
  (think_loop fuel text).map trim_leading

/-- The function `filter_think_tags` (lines 9-33).  Every iteration of the loop removes at
least the 7 characters of an open marker, so `text.length + 1` iterations are never used
up (`think_loop_terminates`). -/
def filter_think_tags (text : Str) : Option Str :=
  filter_think_tags_fuel (text.length + 1) text

/-! ## Prompt rendering and the conversation history (`build_conversation`, `main`) -/

/-- The literal `"<|im_start|>user\n"`. -/
def USER_OPEN : Str := "<|im_start|>user\n".toList

/-- The literal `"<|im_start|>assistant\n"`. -/
def ASSISTANT_OPEN : Str := "<|im_start|>assistant\n".toList

/-- The literal `"<|im_end|>\n"`. -/
def TURN_END : Str := "<|im_end|>\n".toList

/-- One iteration of the `for` loop of `build_conversation` (lines 108-109): the four
writes of a history turn to the stream `ss`. -/
def write_turn (ss : Str) (turn : Str × Str) : Str :=
  ss ++ USER_OPEN ++ turn.1 ++ TURN_END ++ ASSISTANT_OPEN ++ turn.2 ++ TURN_END

/-- The function `build_conversation` (lines 102-117); the string stream is the text
written to it so far. -/
def build_conversation (history : List (Str × Str)) (new_input : Str) : Str :=
  let ss := history.foldl write_turn []
  ss ++ USER_OPEN ++ new_input ++ TURN_END ++ ASSISTANT_OPEN

/-- Lines 169-174 of `main`: `push_back` of the finished turn, then `erase(begin())` when
the history has more than 5 turns. -/
def commit (conversation_history : List (Str × Str)) (turn : Str × Str) : List (Str × Str) :=
  let pushed := conversation_history ++ [turn]
  if pushed.length > 5 then pushed.eraseIdx 0 else pushed

/-- Line 151 of `main`: `conversation_history.clear()`. -/
def clear (_conversation_history : List (Str × Str)) : List (Str × Str) := []

/-- The two ways `main` changes the history: a finished turn, or the input `clear`. -/
inductive HistoryOp where
  | commit (turn : Str × Str)
  | clear

/-- The effect of one operation on the history. -/
def HistoryOp.apply (h : List (Str × Str)) : HistoryOp → List (Str × Str)
  | .commit turn => TinyLLama.commit h turn
  | .clear => TinyLLama.clear h

/-- The history after a sequence of operations, from the empty history of line 134. -/
def run_history (ops : List HistoryOp) : List (Str × Str) :=
  ops.foldl HistoryOp.apply []

/-! ## The generation loop (`generate`) -/

/-- The capabilities of `model::Qwen3Model` that `generate` uses, over an engine state
`σ` (weights, buffers, key-value cache).  `predict eng tokens pos is_prompt next` stands
for the calls `embedding`, `fill_input` and `predict` of one loop iteration: `tokens` is
the vector whose embedding is fed, `pos` the value written to the position buffer, `next`
the value of the in-out argument before the call; it returns the value of `next` after
the call and the new engine state. -/
structure Qwen3Model (σ : Type) where
  encode : Str → List Int
  decode : List Int → Str
  is_sentence_ending : Int → Bool
  predict : σ → List Int → Int → Bool → Int → Int × σ

/-- A record of one call of `model.predict` (instrumentation, not program data). -/
structure PredictCall where
  pos : Int
  is_prompt : Bool
  tokens : List Int
  next_in : Int
  next_out : Int
  deriving DecidableEq, Repr

/-- The ways `generate` can end without returning.  `empty_tokens` is the
`LOG_IF(FATAL, tokens.empty())` of line 39, `out_of_range` the exception of
`tokens.at(...)`; `iterations_used_up` is not a behaviour of the code: it marks that
the iteration bound which this embedding puts on a loop was used up. -/
inductive GenError where
  | empty_tokens
  | out_of_range
  | iterations_used_up
  deriving DecidableEq, Repr

/-- The local variables of `generate` that the loop changes, with the engine state and
the log of the `predict` calls made so far. -/
structure GenState (σ : Type) where
  pos : Int
  next : Int
  is_prompt : Bool
  tokens : List Int
  words : List Int
  engine : σ
  calls : List PredictCall

/-- `v.at(i)` for a `std::vector<int32_t>`: the element at index `i`, or the exception
`std::out_of_range` when `i` is not an index of `v`. -/
def vector_at (v : List Int) (i : Int) : Except GenError Int :=
  if 0 ≤ i then
    match v.get? i.toNat with
    | some x => .ok x
    | none => .error .out_of_range
  else .error .out_of_range

/-- Lines 51-64: the position write and the `if`/`else` with the `predict` call.
`prompt_tokens` is the vector that `prompt_embedding` (line 44) embeds. -/
def predict_step {σ : Type} (M : Qwen3Model σ) (prompt_tokens : List Int) (prompt_len : Int)
    (st : GenState σ) : GenState σ :=
  if st.pos < prompt_len - 1 then
    let r := M.predict st.engine prompt_tokens st.pos st.is_prompt st.next
    { st with
      next := r.1
      engine := r.2
      calls := st.calls ++ [⟨st.pos, st.is_prompt, prompt_tokens, st.next, r.1⟩] }
  else
    let tokens := [st.next]
    let r := M.predict st.engine tokens st.pos false st.next
    { st with
      is_prompt := false
      tokens := tokens
      next := r.1
      engine := r.2
      words := if r.1 ≠ 151645 ∧ r.1 ≠ 151644 then st.words ++ [r.1] else st.words
      calls := st.calls ++ [⟨st.pos, false, tokens, st.next, r.1⟩] }

/-- Lines 69-72: teacher forcing while `is_prompt` holds, then `pos += 1`. -/
def advance {σ : Type} (st : GenState σ) : Except GenError (GenState σ) :=
  if st.is_prompt then
    match vector_at st.tokens (st.pos + 1) with
    | .ok next => .ok { st with next := next, pos := st.pos + 1 }
    | .error e => .error e
  else .ok { st with pos := st.pos + 1 }

/-- The `while (pos < total_steps)` loop of lines 50-73, run for at most `fuel`
iterations.  It returns the state in which the loop was left and, when it was not left
by its condition or by `break`, the reason. -/
def generate_loop {σ : Type} (M : Qwen3Model σ) (prompt_tokens : List Int) (prompt_len : Int)
    (total_steps : Int) : Nat → GenState σ → GenState σ × Option GenError
  | 0, st => (st, some .iterations_used_up)
  | fuel + 1, st =>
    if st.pos < total_steps then
      let st1 := predict_step M prompt_tokens prompt_len st
      if M.is_sentence_ending st1.next then (st1, none)
      else
        match advance st1 with
        | .ok st2 => generate_loop M prompt_tokens prompt_len total_steps fuel st2
        | .error e => (st1, some e)
    else (st, none)

/-- The local variables of `generate` at line 49, before the first iteration. -/
def start_state {σ : Type} (engine : σ) (tokens : List Int) (next : Int) : GenState σ :=
  { pos := 0, next := next, is_prompt := true, tokens := tokens, words := [],
    engine := engine, calls := [] }

/-- What a call of `generate` leaves behind: `result` is the returned step count with the
text stored through `output_text`, or the reason why the call did not return; `words` is
the local vector `words` at that point, `engine` the engine state and `calls` the log of
the `predict` calls made. -/
structure GenOutcome (σ : Type) where
  result : Except GenError (Int × Str)
  words : List Int
  engine : σ
  calls : List PredictCall

/-- The function `generate` (lines 35-88) with `output_text` given, as `main` calls it,
for a prompt whose token count fits `int32_t` (less than `2 ^ 31` tokens), so that
`prompt_len` is the length of `tokens`; `generate_int32` below is without this assumption.
The loop starts at `pos = 0` and adds 1 to `pos` in every iteration that does not leave
it, so `total_steps.toNat + 1` iterations are never used up. -/
def generate {σ : Type} (M : Qwen3Model σ) (engine : σ) (sentence : Str) (total_steps : Int) :
    GenOutcome σ :=
  let tokens := M.encode sentence
  let prompt_len : Int := tokens.length
  if tokens.isEmpty then
    { result := .error .empty_tokens, words := [], engine := engine, calls := [] }
  else
    match vector_at tokens 0 with
    | .error e => { result := .error e, words := [], engine := engine, calls := [] }
    | .ok next =>
      let st0 := start_state engine tokens next
      let fin := generate_loop M tokens prompt_len total_steps (total_steps.toNat + 1) st0
      let st := fin.1
      match fin.2 with
      | some e => { result := .error e, words := st.words, engine := st.engine, calls := st.calls }
      | none =>
        let decoded := M.decode st.words
        match filter_think_tags decoded with
        | none =>
          { result := .error .iterations_used_up, words := st.words, engine := st.engine,
            calls := st.calls }
        | some filtered =>
          { result := .ok (min st.pos total_steps, filtered), words := st.words,
            engine := st.engine, calls := st.calls }

/-- The conversion of line 38 from `size_t` to `int32_t`: the value modulo `2 ^ 32` in the
range from `-2 ^ 31` to `2 ^ 31 - 1`. -/
def to_int32 (n : Nat) : Int := ((n : Int) + 2 ^ 31) % 2 ^ 32 - 2 ^ 31

/-- The function `generate` (lines 35-88) without the assumption that the token count
fits `int32_t`: `prompt_len` is the token count converted to `int32_t`.  For a prompt of
less than `2 ^ 31` tokens it is `generate` (`generate_int32_eq`).  The difference
`prompt_len - 1` is taken in the integers; in the code it overflows only for
`prompt_len = -2 ^ 31`. -/
def generate_int32 {σ : Type} (M : Qwen3Model σ) (engine : σ) (sentence : Str)
    (total_steps : Int) : GenOutcome σ :=
  let tokens := M.encode sentence
  let prompt_len : Int := to_int32 tokens.length
  if tokens.isEmpty then
    { result := .error .empty_tokens, words := [], engine := engine, calls := [] }
  else
    match vector_at tokens 0 with
    | .error e => { result := .error e, words := [], engine := engine, calls := [] }
    | .ok next =>
      let st0 := start_state engine tokens next
      let fin := generate_loop M tokens prompt_len total_steps (total_steps.toNat + 1) st0
      let st := fin.1
      match fin.2 with
      | some e => { result := .error e, words := st.words, engine := st.engine, calls := st.calls }
      | none =>
        let decoded := M.decode st.words
        match filter_think_tags decoded with
        | none =>
          { result := .error .iterations_used_up, words := st.words, engine := st.engine,
            calls := st.calls }
        | some filtered =>
          { result := .ok (min st.pos total_steps, filtered), words := st.words,
            engine := st.engine, calls := st.calls }

/-! ## The single-turn template (`fill_template`) -/

/-- `s.replace(pos, n, str)`: the `n` characters of `s` from index `pos` are replaced by
`str`.  It is called only with `pos` an index of `s`. -/
def replace (s : Str) (pos n : Nat) (str : Str) : Str :=
  s.take pos ++ str ++ s.drop (pos + n)

/-- The constant `format` of line 91. -/
def TEMPLATE_FORMAT : Str := "<|im_start|>user\n%s<|im_end|>\n<|im_start|>assistant\n".toList

/-- The function `fill_template` (lines 90-99). -/
def fill_template (content : Str) : Str :=
  let result := TEMPLATE_FORMAT
  match find "%s".toList result with
  | some pos => replace result pos 2 content
  | none => result

/-! ## The session loop of `main` -/

/-- The variables of `main` that outlive an iteration of its `while (true)` loop: the
conversation history and the engine state of `model`. -/
structure Session (σ : Type) where
  conversation_history : List (Str × Str)
  engine : σ

/-- One iteration of the `while (true)` loop of `main` (lines 139-179) on the line
`user_input` read from the standard input.  The value is `none` when the process ends in
this iteration: by `quit` or `exit`, or because `generate` does not return (the fatal
condition of line 39). -/
def main_step {σ : Type} (M : Qwen3Model σ) (s : Session σ) (user_input : Str) :
    Option (Session σ) :=
  if user_input = "quit".toList ∨ user_input = "exit".toList then none
  else if user_input = "clear".toList then
    some { s with conversation_history := clear s.conversation_history }
  else
    let full_prompt := build_conversation s.conversation_history user_input
    let out := generate M s.engine full_prompt 2560
    match out.result with
    | .error _ => none
    | .ok (_, assistant_response) =>
      some { conversation_history := commit s.conversation_history (user_input, assistant_response)
             engine := out.engine }

/-- The session after the lines `inputs` have been read, `none` when the process has
ended before. -/
def main_loop {σ : Type} (M : Qwen3Model σ) : List Str → Session σ → Option (Session σ)
  | [], s => some s
  | user_input :: rest, s =>
    match main_step M s user_input with
    | none => none
    | some s2 => main_loop M rest s2

/-! ## Auxiliary definitions of the statements and proofs -/

/-- A marker none of whose proper non-empty suffixes starts the marker again. -/
abbrev Borderless (pat : Str) : Prop :=
  ∀ k, k < pat.length → 0 < k → ¬ pat.drop k <+: pat

/-- The predicate "is one of the characters space, newline, carriage return, tab". -/
def is_whitespace (c : Char) : Bool := WHITESPACE.contains c

/-- The text of one closed history turn: the user wrapper, then the closed assistant
wrapper. -/
def turn_text (turn : Str × Str) : Str :=
  USER_OPEN ++ turn.1 ++ TURN_END ++ ASSISTANT_OPEN ++ turn.2 ++ TURN_END

/-- The tokens predicted in DECODE mode according to a call log, in order, without the
two sentinel identifiers. -/
def decode_words (calls : List PredictCall) : List Int :=
  ((calls.filter (fun c => !c.is_prompt)).map PredictCall.next_out).filter
    (fun t => decide (t ≠ 151645 ∧ t ≠ 151644))

/-- What holds of the loop state at the loop head and after the `predict` call. -/
structure GenInv {σ : Type} (prompt_tokens : List Int) (prompt_len : Int) (st : GenState σ) :
    Prop where
  pos_nonneg : 0 ≤ st.pos
  tokens_eq : st.is_prompt = true → st.tokens = prompt_tokens
  decode_pos : st.is_prompt = false → prompt_len - 1 ≤ st.pos
  words_eq : st.words = decode_words st.calls
  calls_phase : ∀ c ∈ st.calls, (c.is_prompt = true ↔ c.pos < prompt_len - 1)

/-- A history turn whose assistant text is the text that a call of `generate` of the
session stored through `output_text`: the scrub of the decoded `words` of that call on
the prompt rendered for the turn's user text. -/
def TurnFiltered {σ : Type} (M : Qwen3Model σ) (turn : Str × Str) : Prop :=
  ∃ (engine : σ) (history : List (Str × Str)) (steps : Int),
    (generate M engine (build_conversation history turn.1) 2560).result
      = .ok (steps, turn.2) ∧
    filter_think_tags
      (M.decode (generate M engine (build_conversation history turn.1) 2560).words)
      = some turn.2

/-- A toy engine whose tokenizer gives `2 ^ 31 + 1` tokens for every prompt: the token
`1` followed by `2 ^ 31` times the token `5`.  It predicts as `toyModel` does. -/
def toyModelLong : Qwen3Model Nat where
  encode := fun _ => 1 :: List.replicate (2 ^ 31) 5
  decode := fun _ => "ok".toList
  is_sentence_ending := fun t => t == 7
  predict := fun eng _ pos is_prompt _ => (if is_prompt then 100 + pos else 7, eng + 1)

/-- A second toy engine.  It differs from `toyModel` only in the predictions made in
PROMPT mode, which are all `7`, the sentence terminator. -/
def toyModelStop : Qwen3Model Nat where
  encode := fun s => s.map (fun c => (c.toNat : Int))
  decode := fun _ => "ok".toList
  is_sentence_ending := fun t => t == 7
  predict := fun eng _ _ _ _ => (7, eng + 1)

/-- A third toy engine.  It differs from `toyModel` only in the predictions made in
PROMPT mode, which are `200 + 2 * pos`; none of them is the sentence terminator. -/
def toyModelOther : Qwen3Model Nat where
  encode := fun s => s.map (fun c => (c.toNat : Int))
  decode := fun _ => "ok".toList
  is_sentence_ending := fun t => t == 7
  predict := fun eng _ pos is_prompt _ => (if is_prompt then 200 + 2 * pos else 7, eng + 1)

/-- Teacher forcing, as a condition on the call log of a run on the prompt `tokens`: the
call with index `i` is made at position `i`, in PROMPT mode on the whole prompt when
`i < tokens.length - 1` and otherwise in DECODE mode on the one token it is given; the
token it is given is `tokens[i]` up to the last prompt position and from then on the
prediction of the call before. -/
def LogOK (tokens : List Int) (calls : List PredictCall) : Prop :=
  ∀ (i : Nat) (c : PredictCall), calls[i]? = some c →
    c.pos = (i : Int) ∧
    (c.is_prompt = true ↔ (i : Int) < (tokens.length : Int) - 1) ∧
    (c.is_prompt = true → c.tokens = tokens) ∧
    (c.is_prompt = false → c.tokens = [c.next_in]) ∧
    ((i : Int) ≤ (tokens.length : Int) - 1 → tokens[i]? = some c.next_in) ∧
    ((tokens.length : Int) - 1 < (i : Int) →
      ∃ prev, calls[i - 1]? = some prev ∧ c.next_in = prev.next_out)

/-- What holds of the loop state each time the loop condition is tested. -/
structure HeadInv {σ : Type} (M : Qwen3Model σ) (tokens : List Int) (total_steps : Int)
    (st : GenState σ) : Prop where
  inv : GenInv tokens tokens.length st
  calls_len : (st.calls.length : Int) = st.pos
  pos_le : st.pos ≤ max total_steps 0
  log : LogOK tokens st.calls
  no_term : ∀ c ∈ st.calls, M.is_sentence_ending c.next_out = false
  next_prompt : st.pos ≤ (tokens.length : Int) - 1 →
    st.is_prompt = true ∧ tokens[st.pos.toNat]? = some st.next
  next_decode : (tokens.length : Int) - 1 < st.pos →
    ∃ prev, st.calls[st.calls.length - 1]? = some prev ∧ st.next = prev.next_out
  words_len : (st.words.length : Int) ≤ max 0 (st.pos - ((tokens.length : Int) - 1))

/-- What holds when the loop is left: no exception, and either the loop condition is
false and no prediction was a sentence terminator, or the loop was left by `break`
before `pos` was incremented, on the first prediction that is a sentence terminator. -/
structure FinalOK {σ : Type} (M : Qwen3Model σ) (tokens : List Int) (total_steps : Int)
    (fin : GenState σ × Option GenError) : Prop where
  no_error : fin.2 = none
  inv : GenInv tokens tokens.length fin.1
  log : LogOK tokens fin.1.calls
  pos_le : fin.1.pos ≤ max total_steps 0
  words_len : (fin.1.words.length : Int) ≤ max 0 (total_steps - ((tokens.length : Int) - 1))
  exit :
    (¬ fin.1.pos < total_steps ∧ (fin.1.calls.length : Int) = fin.1.pos ∧
        ∀ c ∈ fin.1.calls, M.is_sentence_ending c.next_out = false) ∨
      (fin.1.pos < total_steps ∧
        ∃ init last, fin.1.calls = init ++ [last] ∧ (init.length : Int) = fin.1.pos ∧
          (∀ c ∈ init, M.is_sentence_ending c.next_out = false) ∧
          M.is_sentence_ending last.next_out = true)

/-- A toy engine: the state counts the `predict` calls; the prediction is `100 + pos` in
PROMPT mode and `7` in DECODE mode; the only sentence terminator is `7`. -/
def toyModel : Qwen3Model Nat where
  encode := fun s => s.map (fun c => (c.toNat : Int))
  decode := fun _ => "ok".toList
  is_sentence_ending := fun t => t == 7
  predict := fun eng _ pos is_prompt _ => (if is_prompt then 100 + pos else 7, eng + 1)

/-! ## `find`, `erase` and the scrub loop -/

theorem find_eq_none_iff (pat s : Str) : find pat s = none ↔ ¬ pat <:+: s := by
  induction s with
  | nil =>
    simp only [find, List.isPrefixOf_iff_prefix, List.infix_nil, List.prefix_nil]
    split <;> simp_all
  | cons c cs ih =>
    simp only [find, List.isPrefixOf_iff_prefix, List.infix_cons_iff]
    split
    · simp_all
    · simp_all

theorem find_eq_some_iff (pat s : Str) (i : Nat) :
    find pat s = some i ↔
      i ≤ s.length ∧ pat <+: s.drop i ∧ ∀ j, j < i → ¬ pat <+: s.drop j := by
  induction s generalizing i with
  | nil =>
    simp only [find, List.isPrefixOf_iff_prefix, List.prefix_nil, List.length_nil,
      Nat.le_zero, List.drop_nil]
    split
    · constructor
      · intro h
        have : i = 0 := by simpa using h.symm
        subst this
        simp_all
      · rintro ⟨h, -, -⟩
        simp [h]
    · simp_all
  | cons c cs ih =>
    simp only [find, List.isPrefixOf_iff_prefix]
    split
    · rename_i hp
      constructor
      · intro h
        have : i = 0 := by simpa using h.symm
        subst this
        simp [hp]
      · rintro ⟨-, -, h3⟩
        cases i with
        | zero => rfl
        | succ k => exact absurd hp (by simpa using h3 0 (Nat.succ_pos k))
    · rename_i hp
      cases i with
      | zero =>
        simp only [List.drop_zero, Option.map_eq_some', Nat.add_one_ne_zero, and_false,
          exists_false, false_iff]
        rintro ⟨-, h2, -⟩
        exact hp h2
      | succ k =>
        simp only [Option.map_eq_some', Nat.add_right_cancel_iff, exists_eq_right, ih k,
          List.length_cons, Nat.add_le_add_iff_right, List.drop_succ_cons]
        constructor
        · rintro ⟨h1, h2, h3⟩
          refine ⟨h1, h2, ?_⟩
          intro j hj
          cases j with
          | zero => simpa using hp
          | succ m => simpa using h3 m (by omega)
        · rintro ⟨h1, h2, h3⟩
          refine ⟨h1, h2, ?_⟩
          intro j hj
          simpa using h3 (j + 1) (by omega)

theorem find_some_bound {pat s : Str} {i : Nat} (h : find pat s = some i) :
    i + pat.length ≤ s.length := by
  obtain ⟨h1, h2, -⟩ := (find_eq_some_iff pat s i).1 h
  have := h2.length_le
  simp only [List.length_drop] at this
  omega

theorem find_from_some_ge {pat s : Str} {pos j : Nat} (h : find_from pat s pos = some j) :
    pos ≤ j := by
  unfold find_from at h
  split at h
  · obtain ⟨a, -, ha⟩ := Option.map_eq_some'.1 h
    omega
  · simp at h

theorem erase_length (s : Str) (pos n : Nat) (h : pos ≤ s.length) :
    (erase s pos n).length = pos + (s.length - (pos + n)) := by
  simp [erase, List.length_take, Nat.min_eq_left h]

theorem erase_think_length {s : Str} {i : Nat} (h : find THINK_OPEN s = some i) :
    (erase_think s i).length + 7 ≤ s.length := by
  have hb := find_some_bound h
  have h7 : THINK_OPEN.length = 7 := by decide
  rw [h7] at hb
  unfold erase_think
  split
  · rename_i j hj
    have := find_from_some_ge hj
    rw [erase_length _ _ _ (by omega)]
    omega
  · rw [erase_length _ _ _ (by omega)]
    omega

/-- The loop ends: with more iterations allowed than the string has characters, it
returns. -/
theorem think_loop_terminates (fuel : Nat) (s : Str) (h : s.length < fuel) :
    ∃ r, think_loop fuel s = some r := by
  induction fuel generalizing s with
  | zero => omega
  | succ n ih =>
    unfold think_loop
    split
    · exact ⟨s, rfl⟩
    · rename_i i hi
      have := erase_think_length hi
      exact ih _ (by omega)

/-- Allowing more iterations does not change the value the loop returns. -/
theorem think_loop_mono {fuel fuel' : Nat} {s r : Str} (h : think_loop fuel s = some r)
    (hle : fuel ≤ fuel') : think_loop fuel' s = some r := by
  induction fuel generalizing s fuel' with
  | zero => simp [think_loop] at h
  | succ n ih =>
    obtain ⟨m, rfl⟩ : ∃ m, fuel' = m + 1 := ⟨fuel' - 1, by omega⟩
    unfold think_loop at h ⊢
    split
    · rename_i hn
      simpa [hn] using h
    · rename_i i hi
      simp only [hi] at h
      exact ih h (by omega)

theorem think_loop_no_open {fuel : Nat} {s r : Str} (h : think_loop fuel s = some r) :
    find THINK_OPEN r = none := by
  induction fuel generalizing s with
  | zero => simp [think_loop] at h
  | succ n ih =>
    unfold think_loop at h
    split at h
    · rename_i hn
      have : s = r := by simpa using h
      exact this ▸ hn
    · exact ih h

theorem think_loop_of_none {s : Str} (h : find THINK_OPEN s = none) (fuel : Nat) :
    think_loop (fuel + 1) s = some s := by
  simp [think_loop, h]

theorem think_loop_step {s : Str} {i : Nat} (h : find THINK_OPEN s = some i) (fuel : Nat) :
    think_loop (fuel + 1) s = think_loop fuel (erase_think s i) := by
  simp [think_loop, h]

/-- The value of the loop on `s`, with the iteration bound of `filter_think_tags`, is the
value of the loop with any larger bound. -/
theorem think_loop_eq_of_lt {fuel : Nat} {s : Str} (h : s.length < fuel) :
    think_loop fuel s = think_loop (s.length + 1) s := by
  obtain ⟨r, hr⟩ := think_loop_terminates (s.length + 1) s (by omega)
  rw [hr]
  exact think_loop_mono hr (by omega)

/-! ## Trimming -/

theorem find_first_not_of_eq_none_iff (set s : Str) :
    find_first_not_of set s = none ↔ ∀ c ∈ s, c ∈ set := by
  induction s with
  | nil => simp [find_first_not_of]
  | cons c cs ih =>
    by_cases hc : c ∈ set
    · simp [find_first_not_of, hc, ih]
    · simp [find_first_not_of, hc]

theorem find_first_not_of_eq_some (set s : Str) (k : Nat)
    (h : find_first_not_of set s = some k) :
    s.drop k = s.dropWhile (fun c => set.contains c) ∧
      ∃ c rest, s.drop k = c :: rest ∧ c ∉ set := by
  induction s generalizing k with
  | nil => simp [find_first_not_of] at h
  | cons c cs ih =>
    by_cases hc : c ∈ set
    · have hc' : set.contains c = true := by simpa using hc
      simp only [find_first_not_of, hc', if_true] at h
      obtain ⟨a, ha, rfl⟩ := Option.map_eq_some'.1 h
      have := ih a ha
      simpa [List.dropWhile_cons, hc] using this
    · have hc' : ¬ set.contains c = true := by simpa using hc
      simp only [find_first_not_of, hc', if_false] at h
      have : k = 0 := by simpa using h.symm
      subst this
      simp [List.dropWhile_cons, hc]

theorem trim_leading_suffix (s : Str) : trim_leading s <:+ s := by
  unfold trim_leading substr
  split
  · exact List.drop_suffix _ _
  · exact List.suffix_refl _

theorem trim_leading_idem (s : Str) : trim_leading (trim_leading s) = trim_leading s := by
  cases h : find_first_not_of WHITESPACE s with
  | none =>
    have : trim_leading s = s := by simp [trim_leading, h]
    rw [this, this]
  | some k =>
    have hs : trim_leading s = s.drop k := by simp [trim_leading, h, substr]
    obtain ⟨-, c, rest, hcr, hc⟩ := find_first_not_of_eq_some _ _ _ h
    rw [hs, hcr]
    have : find_first_not_of WHITESPACE (c :: rest) = some 0 := by
      simp [find_first_not_of, hc]
    simp [trim_leading, this, substr]

theorem find_none_of_suffix {pat s t : Str} (h : find pat s = none) (ht : t <:+ s) :
    find pat t = none := by
  rw [find_eq_none_iff] at h ⊢
  exact fun hp => h (hp.trans ht.isInfix)

/-- The scrub returns, and what it returns has no open marker left. -/
theorem filter_think_tags_total (text : Str) :
    ∃ r, filter_think_tags text = some r ∧ find THINK_OPEN r = none := by
  obtain ⟨r, hr⟩ := think_loop_terminates (text.length + 1) text (by omega)
  refine ⟨trim_leading r, by simp [filter_think_tags, filter_think_tags_fuel, hr], ?_⟩
  exact find_none_of_suffix (think_loop_no_open hr) (trim_leading_suffix r)

/-- C1. `filter_think_tags` is idempotent: for every text the scrub returns a text, and
scrubbing that text again returns it unchanged. -/
theorem filter_think_tags_idempotent (text : Str) :
    ∃ r, filter_think_tags text = some r ∧ filter_think_tags r = some r := by
  obtain ⟨r, hr⟩ := think_loop_terminates (text.length + 1) text (by omega)
  refine ⟨trim_leading r, by simp [filter_think_tags, filter_think_tags_fuel, hr], ?_⟩
  have hn : find THINK_OPEN (trim_leading r) = none :=
    find_none_of_suffix (think_loop_no_open hr) (trim_leading_suffix r)
  simp [filter_think_tags, filter_think_tags_fuel, think_loop_of_none hn, trim_leading_idem]

/-! ## Occurrences of a marker in a concatenation -/

theorem infix_iff_prefix_drop (pat s : Str) : pat <:+: s ↔ ∃ j, pat <+: s.drop j := by
  constructor
  · rintro ⟨a, b, rfl⟩
    exact ⟨a.length, by simp⟩
  · rintro ⟨j, hj⟩
    exact hj.isInfix.trans (List.drop_suffix j s).isInfix

theorem THINK_OPEN_borderless : Borderless THINK_OPEN := by decide

theorem THINK_CLOSE_borderless : Borderless THINK_CLOSE := by decide

/-- In `a ++ pat ++ b`, where `a` has no occurrence of the borderless marker `pat`, no
occurrence of `pat` starts inside `a`. -/
theorem no_early_occurrence {pat a : Str} (b : Str) (hb : Borderless pat)
    (ha : ¬ pat <:+: a) (j : Nat) (hj : j < a.length) :
    ¬ pat <+: (a ++ pat ++ b).drop j := by
  intro h
  rw [List.append_assoc, List.drop_append_of_le_length (by omega)] at h
  have hu : a.drop j <+: a.drop j ++ (pat ++ b) := List.prefix_append _ _
  rcases List.prefix_or_prefix_of_prefix h hu with h1 | h1
  · exact ha (h1.isInfix.trans (List.drop_suffix j a).isInfix)
  · obtain ⟨v, hv⟩ := h1
    have hlen : (a.drop j).length + v.length = pat.length := by
      rw [← List.length_append, hv]
    have hupos : 0 < (a.drop j).length := by
      rw [List.length_drop]; omega
    have hvd : v = pat.drop (a.drop j).length := by
      rw [← hv, List.drop_left]
    have h2 : a.drop j ++ v <+: a.drop j ++ (pat ++ b) := by rw [hv]; exact h
    rw [List.prefix_append_right_inj] at h2
    have hv2 : v <+: pat ++ b := h2
    have hv3 : v <+: pat :=
      List.prefix_of_prefix_length_le hv2 (List.prefix_append _ _) (by omega)
    by_cases hv0 : v = []
    · subst hv0
      rw [List.append_nil] at hv
      exact ha (hv ▸ (List.drop_suffix j a).isInfix)
    · have hvpos : 0 < v.length := List.length_pos.2 hv0
      exact hb (a.drop j).length (by omega) hupos (hvd ▸ hv3)

theorem find_append_marker {pat a : Str} (b : Str) (hb : Borderless pat)
    (ha : ¬ pat <:+: a) : find pat (a ++ pat ++ b) = some a.length := by
  rw [find_eq_some_iff]
  refine ⟨by simp, ?_, fun j hj => no_early_occurrence b hb ha j hj⟩
  rw [List.append_assoc, List.drop_left]
  exact List.prefix_append _ _

/-- No close marker starts inside an open marker that is followed by any text. -/
theorem THINK_CLOSE_not_in_open :
    ∀ j, j < THINK_OPEN.length →
      ¬ THINK_OPEN.drop j <+: THINK_CLOSE ∧ ¬ THINK_CLOSE <+: THINK_OPEN.drop j := by
  decide

theorem no_close_in_open_append {body : Str} (h : ¬ THINK_CLOSE <:+: body) :
    ¬ THINK_CLOSE <:+: THINK_OPEN ++ body := by
  rw [infix_iff_prefix_drop]
  rintro ⟨j, hj⟩
  by_cases hlt : j < THINK_OPEN.length
  · rw [List.drop_append_of_le_length (by omega)] at hj
    have hu : THINK_OPEN.drop j <+: THINK_OPEN.drop j ++ body := List.prefix_append _ _
    have := THINK_CLOSE_not_in_open j hlt
    rcases List.prefix_or_prefix_of_prefix hj hu with h1 | h1
    · exact this.2 h1
    · exact this.1 h1
  · have hd : (THINK_OPEN ++ body).drop j = body.drop (j - THINK_OPEN.length) := by
      rw [List.drop_append_eq_append_drop, List.drop_eq_nil_of_le (by omega), List.nil_append]
    rw [hd] at hj
    exact h ((infix_iff_prefix_drop _ _).2 ⟨_, hj⟩)

/-- One iteration on a well-formed span: the span and its two markers are erased. -/
theorem erase_think_span {pre body : Str} (post : Str) (hbody : ¬ THINK_CLOSE <:+: body) :
    erase_think (pre ++ THINK_OPEN ++ body ++ THINK_CLOSE ++ post) pre.length
      = pre ++ post := by
  have hf : find THINK_CLOSE ((THINK_OPEN ++ body) ++ THINK_CLOSE ++ post)
      = some (THINK_OPEN ++ body).length :=
    find_append_marker post THINK_CLOSE_borderless (no_close_in_open_append hbody)
  have hd : (pre ++ THINK_OPEN ++ body ++ THINK_CLOSE ++ post).drop pre.length
      = (THINK_OPEN ++ body) ++ THINK_CLOSE ++ post := by
    simp only [List.append_assoc, List.drop_left]
  have hff : find_from THINK_CLOSE (pre ++ THINK_OPEN ++ body ++ THINK_CLOSE ++ post)
      pre.length = some ((THINK_OPEN ++ body).length + pre.length) := by
    unfold find_from
    rw [if_pos (by simp), hd, hf]
    rfl
  unfold erase_think
  rw [hff]
  simp only [erase]
  have h7 : THINK_OPEN.length = 7 := by decide
  have h8 : THINK_CLOSE.length = 8 := by decide
  have e1 : (pre ++ THINK_OPEN ++ body ++ THINK_CLOSE ++ post).take pre.length = pre := by
    simp only [List.append_assoc, List.take_left]
  have e2 : pre.length + ((THINK_OPEN ++ body).length + pre.length - pre.length + 8)
      = (pre ++ THINK_OPEN ++ body ++ THINK_CLOSE).length := by
    simp only [List.length_append, h7, h8]; omega
  rw [e1, e2, List.drop_left]

/-- One iteration on an open marker that no close marker follows: the 7 characters of the
open marker are erased. -/
theorem erase_think_unclosed {pre rest : Str} (hrest : ¬ THINK_CLOSE <:+: rest) :
    erase_think (pre ++ THINK_OPEN ++ rest) pre.length = pre ++ rest := by
  have hf : find THINK_CLOSE (THINK_OPEN ++ rest) = none :=
    (find_eq_none_iff _ _).2 (no_close_in_open_append hrest)
  have hff : find_from THINK_CLOSE (pre ++ THINK_OPEN ++ rest) pre.length = none := by
    unfold find_from
    rw [if_pos (by simp)]
    simp only [List.append_assoc, List.drop_left, hf]
    rfl
  unfold erase_think
  rw [hff]
  simp only [erase]
  have h7 : THINK_OPEN.length = 7 := by decide
  have e1 : (pre ++ THINK_OPEN ++ rest).take pre.length = pre := by
    simp only [List.append_assoc, List.take_left]
  have e2 : pre.length + 7 = (pre ++ THINK_OPEN).length := by
    simp only [List.length_append, h7]
  rw [e1, e2, List.drop_left]

/-- The scrub of a text in which an iteration of the loop turns `s` into the shorter `t`
is the scrub of `t`. -/
theorem filter_think_tags_step {s t : Str} {i : Nat} (hi : find THINK_OPEN s = some i)
    (ht : erase_think s i = t) : filter_think_tags s = filter_think_tags t := by
  have hlen := erase_think_length hi
  rw [ht] at hlen
  unfold filter_think_tags filter_think_tags_fuel
  rw [think_loop_step hi, ht, think_loop_eq_of_lt (by omega)]

theorem filter_think_tags_of_no_open {s : Str} (h : ¬ THINK_OPEN <:+: s) :
    filter_think_tags s = some (trim_leading s) := by
  unfold filter_think_tags filter_think_tags_fuel
  rw [think_loop_of_none ((find_eq_none_iff _ _).2 h)]
  rfl

theorem trim_leading_eq_dropWhile {s : Str} (h : ∃ c ∈ s, c ∉ WHITESPACE) :
    trim_leading s = s.dropWhile is_whitespace := by
  cases hf : find_first_not_of WHITESPACE s with
  | none =>
    obtain ⟨c, hc, hcw⟩ := h
    exact absurd ((find_first_not_of_eq_none_iff _ _).1 hf c hc) hcw
  | some k =>
    have e : is_whitespace = fun c => WHITESPACE.contains c := rfl
    rw [e, ← (find_first_not_of_eq_some _ _ _ hf).1]
    simp [trim_leading, hf, substr]

theorem dropWhile_append_of_exists {p : Char → Bool} {pre : Str} (rest : Str)
    (h : ∃ c ∈ pre, p c = false) :
    (pre ++ rest).dropWhile p = pre.dropWhile p ++ rest := by
  induction pre with
  | nil => simp at h
  | cons a as ih =>
    by_cases ha : p a = true
    · obtain ⟨c, hc, hpc⟩ := h
      have hc2 : c ∈ as := by
        rcases List.mem_cons.1 hc with rfl | h2
        · simp [ha] at hpc
        · exact h2
      simp [List.dropWhile_cons, ha, ih ⟨c, hc2, hpc⟩]
    · simp [List.dropWhile_cons, ha]

/-- A text without an open marker that has a character other than whitespace is returned
with its leading whitespace removed. -/
theorem filter_think_tags_no_open_trim {s : Str} (h : ¬ THINK_OPEN <:+: s)
    (hns : ∃ c ∈ s, c ∉ WHITESPACE) :
    filter_think_tags s = some (s.dropWhile is_whitespace) := by
  rw [filter_think_tags_of_no_open h, trim_leading_eq_dropWhile hns]

/-- C2, evaluated at the text of three spaces.  The text has neither marker; the code
returns it unchanged, while the text with its leading whitespace removed is empty. -/
theorem filter_think_tags_whitespace_only :
    ¬ THINK_OPEN <:+: "   ".toList ∧ ¬ THINK_CLOSE <:+: "   ".toList ∧
      filter_think_tags "   ".toList = some "   ".toList ∧
      "   ".toList.dropWhile is_whitespace = [] := by
  decide

/-- C3. A well-formed reasoning span is deleted with its two markers: when `pre` has no
open marker and `body` has no close marker, the scrub of
`pre ++ "<think>" ++ body ++ "</think>" ++ post` returns, and returns what the scrub of
`pre ++ post` returns. -/
theorem filter_think_tags_span (pre body post : Str) (hpre : ¬ THINK_OPEN <:+: pre)
    (hbody : ¬ THINK_CLOSE <:+: body) :
    ∃ r, filter_think_tags (pre ++ THINK_OPEN ++ body ++ THINK_CLOSE ++ post) = some r ∧
      filter_think_tags (pre ++ post) = some r := by
  have hi : find THINK_OPEN (pre ++ THINK_OPEN ++ body ++ THINK_CLOSE ++ post)
      = some pre.length := by
    have := find_append_marker (body ++ THINK_CLOSE ++ post) THINK_OPEN_borderless hpre
    simpa only [List.append_assoc] using this
  obtain ⟨r, hr, -⟩ := filter_think_tags_total (pre ++ post)
  exact ⟨r, (filter_think_tags_step hi (erase_think_span post hbody)).trans hr, hr⟩

/-- The theorem `filter_think_tags_span` at `pre = "Hi "`, `body = "I <think> a bit"`,
`post = "there"`. -/
theorem filter_think_tags_span_witness :
    ¬ THINK_OPEN <:+: "Hi ".toList ∧ ¬ THINK_CLOSE <:+: "I <think> a bit".toList ∧
      ∃ r, filter_think_tags ("Hi ".toList ++ THINK_OPEN ++ "I <think> a bit".toList
          ++ THINK_CLOSE ++ "there".toList) = some r ∧
        filter_think_tags ("Hi ".toList ++ "there".toList) = some r :=
  ⟨by decide, by decide,
    filter_think_tags_span "Hi ".toList "I <think> a bit".toList "there".toList
      (by decide) (by decide)⟩

/-- C4 as stated fails.  With `pre = "<th"` and `rest = "ink>"` the deletion of the open
marker joins the two sides into a new open marker, which the loop deletes too, so nothing
of `rest` is left; with `pre = ""` and `rest = " x"` the leading blank of `rest` is
trimmed. -/
theorem filter_think_tags_unclosed_counterexample :
    (¬ THINK_OPEN <:+: "<th".toList ∧ ¬ THINK_OPEN <:+: "ink>".toList ∧
      ¬ THINK_CLOSE <:+: "ink>".toList ∧
      filter_think_tags ("<th".toList ++ THINK_OPEN ++ "ink>".toList) = some [] ∧
      ¬ "ink>".toList <:+ []) ∧
    (¬ THINK_OPEN <:+: "".toList ∧ ¬ THINK_OPEN <:+: " x".toList ∧
      ¬ THINK_CLOSE <:+: " x".toList ∧
      filter_think_tags ("".toList ++ THINK_OPEN ++ " x".toList) = some "x".toList ∧
      ¬ " x".toList <:+ "x".toList) := by
  decide

/-- C4, amended. When `pre ++ rest` has no open marker, `rest` has no close marker and
`pre ++ rest` has a character other than whitespace, the scrub of
`pre ++ "<think>" ++ rest` returns `pre ++ rest` with its leading whitespace removed: only
the 7 characters of the marker are deleted.  When `pre` has a character other than
whitespace, that result is `pre` without its leading whitespace followed by `rest`
unchanged. -/
theorem filter_think_tags_unclosed (pre rest : Str) (hopen : ¬ THINK_OPEN <:+: pre ++ rest)
    (hclose : ¬ THINK_CLOSE <:+: rest) (hns : ∃ c ∈ pre ++ rest, c ∉ WHITESPACE) :
    filter_think_tags (pre ++ THINK_OPEN ++ rest)
        = some ((pre ++ rest).dropWhile is_whitespace) ∧
      ((∃ c ∈ pre, c ∉ WHITESPACE) →
        (pre ++ rest).dropWhile is_whitespace = pre.dropWhile is_whitespace ++ rest) := by
  have hpre : ¬ THINK_OPEN <:+: pre := fun h =>
    hopen (h.trans (List.prefix_append pre rest).isInfix)
  have hi : find THINK_OPEN (pre ++ THINK_OPEN ++ rest) = some pre.length :=
    find_append_marker rest THINK_OPEN_borderless hpre
  refine ⟨?_, ?_⟩
  · rw [filter_think_tags_step hi (erase_think_unclosed hclose)]
    exact filter_think_tags_no_open_trim hopen hns
  · rintro ⟨c, hc, hcw⟩
    exact dropWhile_append_of_exists rest ⟨c, hc, by simpa [is_whitespace] using hcw⟩

/-- The theorem `filter_think_tags_unclosed` at `pre = ""`, `rest = "partial reasoning"`:
the example of the specification. -/
theorem filter_think_tags_unclosed_witness :
    filter_think_tags "<think>partial reasoning".toList = some "partial reasoning".toList :=
  (filter_think_tags_unclosed [] "partial reasoning".toList (by decide) (by decide)
    ⟨'p', by decide, by decide⟩).1

/-! ## Prompt rendering and the history -/

theorem foldl_write_turn (history : List (Str × Str)) (ss : Str) :
    history.foldl write_turn ss = ss ++ (history.map turn_text).flatten := by
  induction history generalizing ss with
  | nil => simp
  | cons t ts ih =>
    simp only [List.foldl_cons, ih, List.map_cons, List.flatten_cons]
    simp [write_turn, turn_text, List.append_assoc]

/-- C5. `build_conversation` is the concatenation of the turns of the history in order,
each as user wrapper followed by closed assistant wrapper, followed by the new input in
the user wrapper and the open assistant wrapper; on the empty history and `"hi"` it is
`"<|im_start|>user\nhi<|im_end|>\n<|im_start|>assistant\n"`. -/
theorem build_conversation_eq (history : List (Str × Str)) (new_input : Str) :
    build_conversation history new_input
        = (history.map (fun turn =>
              "<|im_start|>user\n".toList ++ turn.1 ++ "<|im_end|>\n".toList
                ++ "<|im_start|>assistant\n".toList ++ turn.2 ++ "<|im_end|>\n".toList)).flatten
            ++ "<|im_start|>user\n".toList ++ new_input ++ "<|im_end|>\n".toList
            ++ "<|im_start|>assistant\n".toList ∧
      build_conversation [] "hi".toList
        = "<|im_start|>user\nhi<|im_end|>\n<|im_start|>assistant\n".toList := by
  refine ⟨?_, by decide⟩
  simp only [build_conversation, foldl_write_turn, List.nil_append]
  rfl

theorem commit_eq (h : List (Str × Str)) (t : Str × Str) :
    commit h t = if (h ++ [t]).length ≤ 5 then h ++ [t] else (h ++ [t]).tail := by
  unfold commit
  by_cases hle : (h ++ [t]).length ≤ 5
  · rw [if_neg (by omega), if_pos hle]
  · rw [if_pos (by omega), if_neg hle]
    cases h <;> rfl

theorem commit_length_le (h : List (Str × Str)) (t : Str × Str) (hh : h.length ≤ 5) :
    (commit h t).length ≤ 5 := by
  rw [commit_eq]
  split
  · assumption
  · simp only [List.length_tail, List.length_append, List.length_singleton]
    omega

theorem foldl_commit (ts h : List (Str × Str)) (hh : h.length ≤ 5) :
    ts.foldl commit h = (h ++ ts).drop ((h ++ ts).length - 5) := by
  induction ts generalizing h with
  | nil =>
    have : (h ++ []).length - 5 = 0 := by simp; omega
    rw [this]; simp
  | cons t ts ih =>
    rw [List.foldl_cons, ih _ (commit_length_le h t hh), commit_eq]
    split
    · simp
    · rename_i hgt
      simp only [List.length_append, List.length_singleton] at hgt
      have e : (h ++ [t]).tail ++ ts = (h ++ t :: ts).drop 1 := by
        cases h <;> simp
      rw [e, List.drop_drop]
      congr 1
      simp only [List.length_drop, List.length_append, List.length_cons]
      omega

/-- C6. `commit` appends the turn and, when that makes more than 5 turns, removes the
first one; 6 commits to the empty history leave the 2nd to 6th turn in order; after any
commits to the empty history, the history is the last `min n 5` of the `n` committed
turns in commit order. -/
theorem commit_fifo :
    (∀ (h : List (Str × Str)) (t : Str × Str),
      commit h t = if (h ++ [t]).length ≤ 5 then h ++ [t] else (h ++ [t]).tail) ∧
    (∀ t1 t2 t3 t4 t5 t6 : Str × Str,
      [t1, t2, t3, t4, t5, t6].foldl commit [] = [t2, t3, t4, t5, t6]) ∧
    (∀ ts : List (Str × Str),
      ts.foldl commit [] = ts.drop (ts.length - min ts.length 5) ∧
        (ts.foldl commit []).length = min ts.length 5) := by
  refine ⟨commit_eq, fun t1 t2 t3 t4 t5 t6 => rfl, fun ts => ?_⟩
  have h := foldl_commit ts [] (by simp)
  simp only [List.nil_append] at h
  have e : ts.length - min ts.length 5 = ts.length - 5 := by omega
  rw [e, h]
  refine ⟨rfl, ?_⟩
  rw [List.length_drop]
  omega

theorem run_history_length_aux (ops : List HistoryOp) (h : List (Str × Str))
    (hh : h.length ≤ 5) : (ops.foldl HistoryOp.apply h).length ≤ 5 := by
  induction ops generalizing h with
  | nil => simpa using hh
  | cons op ops ih =>
    rw [List.foldl_cons]
    apply ih
    cases op with
    | commit t => exact commit_length_le h t hh
    | clear => simp [HistoryOp.apply, clear]

/-- C7. From the empty history, after every sequence of commits and clears the history
has at most 5 turns, and a sequence that ends with a clear leaves no turn. -/
theorem run_history_length_le (ops : List HistoryOp) :
    (run_history ops).length ≤ 5 ∧ run_history (ops ++ [HistoryOp.clear]) = [] ∧
      ∀ h, clear h = [] := by
  refine ⟨run_history_length_aux ops [] (by simp), ?_, fun _ => rfl⟩
  simp [run_history, List.foldl_append, HistoryOp.apply, clear]

/-! ## The generation loop -/

theorem decode_words_append (calls : List PredictCall) (c : PredictCall) :
    decode_words (calls ++ [c]) = decode_words calls ++ decode_words [c] := by
  simp [decode_words]

section loop
variable {σ : Type} (M : Qwen3Model σ) (prompt_tokens : List Int) (prompt_len : Int)
  (total_steps : Int)

theorem predict_step_pos (st : GenState σ) :
    (predict_step M prompt_tokens prompt_len st).pos = st.pos := by
  unfold predict_step
  split <;> rfl

theorem predict_step_calls (st : GenState σ) :
    ∃ c : PredictCall, (predict_step M prompt_tokens prompt_len st).calls = st.calls ++ [c] ∧
      c.pos = st.pos ∧ c.next_out = (predict_step M prompt_tokens prompt_len st).next := by
  unfold predict_step
  split
  · exact ⟨_, rfl, rfl, rfl⟩
  · exact ⟨_, rfl, rfl, rfl⟩

theorem predict_step_inv {st : GenState σ} (h : GenInv prompt_tokens prompt_len st) :
    GenInv prompt_tokens prompt_len (predict_step M prompt_tokens prompt_len st) := by
  unfold predict_step
  split
  · rename_i hlt
    have hp : st.is_prompt = true := by
      cases hb : st.is_prompt with
      | true => rfl
      | false => have := h.decode_pos hb; omega
    refine ⟨h.pos_nonneg, h.tokens_eq, h.decode_pos, ?_, ?_⟩
    · simp only [decode_words_append, h.words_eq]
      simp [decode_words, hp]
    · intro c hc
      rcases List.mem_append.1 hc with hc | hc
      · exact h.calls_phase c hc
      · rw [List.mem_singleton.1 hc]
        simp [hp, hlt]
  · rename_i hge
    refine ⟨h.pos_nonneg, by simp, fun _ => by simpa using hge, ?_, ?_⟩
    · simp only [decode_words_append, h.words_eq]
      by_cases hs : (M.predict st.engine [st.next] st.pos false st.next).1 ≠ 151645 ∧
          (M.predict st.engine [st.next] st.pos false st.next).1 ≠ 151644
      · simp [decode_words, hs]
      · simp [decode_words, hs]
    · intro c hc
      rcases List.mem_append.1 hc with hc | hc
      · exact h.calls_phase c hc
      · rw [List.mem_singleton.1 hc]
        simpa using hge

theorem predict_step_is_prompt {st : GenState σ}
    (h : (predict_step M prompt_tokens prompt_len st).is_prompt = true) :
    st.pos < prompt_len - 1 ∧ st.is_prompt = true := by
  unfold predict_step at h
  split at h
  · exact ⟨by assumption, h⟩
  · simp at h

theorem vector_at_ok (v : List Int) (i : Int) (h0 : 0 ≤ i) (h1 : i < v.length) :
    ∃ x, vector_at v i = .ok x := by
  unfold vector_at
  rw [if_pos h0]
  have hlt : i.toNat < v.length := by omega
  rw [List.get?_eq_get hlt]
  exact ⟨_, rfl⟩

/-- After the `predict` call of a state that satisfies the invariant, lines 69-72 raise
no exception. -/
theorem advance_ok {st : GenState σ} (hlen : prompt_len = prompt_tokens.length)
    (h : GenInv prompt_tokens prompt_len st) :
    ∃ st2, advance (predict_step M prompt_tokens prompt_len st) = .ok st2 ∧
      st2.pos = st.pos + 1 ∧
      st2.calls = (predict_step M prompt_tokens prompt_len st).calls ∧
      st2.words = (predict_step M prompt_tokens prompt_len st).words ∧
      st2.is_prompt = (predict_step M prompt_tokens prompt_len st).is_prompt ∧
      GenInv prompt_tokens prompt_len st2 := by
  have h1 := predict_step_inv M prompt_tokens prompt_len h
  have hpos := predict_step_pos M prompt_tokens prompt_len st
  unfold advance
  cases hb : (predict_step M prompt_tokens prompt_len st).is_prompt with
  | true =>
    obtain ⟨hlt, -⟩ := predict_step_is_prompt M prompt_tokens prompt_len hb
    have ht := h1.tokens_eq hb
    obtain ⟨x, hx⟩ := vector_at_ok prompt_tokens (st.pos + 1)
      (by have := h.pos_nonneg; omega) (by omega)
    simp only [if_true, ht, hpos, hx]
    refine ⟨_, rfl, rfl, rfl, rfl, rfl, ?_⟩
    exact ⟨by have := h.pos_nonneg; simp only []; omega, fun _ => rfl,
      fun hf => by simp at hf, h1.words_eq, h1.calls_phase⟩
  | false =>
    simp only [Bool.false_eq_true, if_false, hpos]
    refine ⟨_, rfl, rfl, rfl, rfl, rfl, ?_⟩
    have := h1.decode_pos hb
    exact ⟨by have := h.pos_nonneg; simp only []; omega,
      fun hf => by simp at hf,
      fun _ => by simp only []; omega, h1.words_eq, h1.calls_phase⟩

theorem generate_loop_succ (fuel : Nat) (st : GenState σ) :
    generate_loop M prompt_tokens prompt_len total_steps (fuel + 1) st =
      if st.pos < total_steps then
        if M.is_sentence_ending (predict_step M prompt_tokens prompt_len st).next then
          (predict_step M prompt_tokens prompt_len st, none)
        else
          match advance (predict_step M prompt_tokens prompt_len st) with
          | .ok st2 => generate_loop M prompt_tokens prompt_len total_steps fuel st2
          | .error e => (predict_step M prompt_tokens prompt_len st, some e)
      else (st, none) := rfl

theorem advance_calls {st st2 : GenState σ} (h : advance st = .ok st2) :
    st2.calls = st.calls := by
  unfold advance at h
  split at h
  · split at h
    · cases h; rfl
    · cases h
  · cases h; rfl

/-- The loop only appends to the call log. -/
theorem generate_loop_calls_prefix (fuel : Nat) (st : GenState σ) :
    st.calls <+: (generate_loop M prompt_tokens prompt_len total_steps fuel st).1.calls := by
  induction fuel generalizing st with
  | zero => exact List.prefix_refl _
  | succ n ih =>
    obtain ⟨c, hc, -, -⟩ := predict_step_calls M prompt_tokens prompt_len st
    have h1 : st.calls <+: (predict_step M prompt_tokens prompt_len st).calls :=
      hc ▸ List.prefix_append _ _
    rw [generate_loop_succ]
    split
    · split
      · exact h1
      · split
        · rename_i st2 h2
          exact (advance_calls h2 ▸ h1).trans (ih st2)
        · exact h1
    · exact List.prefix_refl _

/-- From a state that satisfies the invariant, the loop is left by its condition or by
`break`: no exception is raised and the iteration bound is not reached.  The state in
which it is left satisfies the invariant. -/
theorem generate_loop_ok (hlen : prompt_len = prompt_tokens.length) (fuel : Nat)
    (st : GenState σ) (h : GenInv prompt_tokens prompt_len st)
    (hfuel : (total_steps - st.pos).toNat < fuel) :
    (generate_loop M prompt_tokens prompt_len total_steps fuel st).2 = none ∧
      GenInv prompt_tokens prompt_len
        (generate_loop M prompt_tokens prompt_len total_steps fuel st).1 := by
  induction fuel generalizing st with
  | zero => omega
  | succ n ih =>
    rw [generate_loop_succ]
    split
    · rename_i hlt
      split
      · exact ⟨rfl, predict_step_inv M prompt_tokens prompt_len h⟩
      · obtain ⟨st2, h2, hpos, -, -, -, hinv⟩ := advance_ok M prompt_tokens prompt_len hlen h
        simp only [h2]
        exact ih st2 hinv (by omega)
    · exact ⟨rfl, h⟩

theorem predict_step_prompt {st : GenState σ} (h : st.pos < prompt_len - 1) :
    (predict_step M prompt_tokens prompt_len st).calls
        = st.calls ++ [⟨st.pos, st.is_prompt, prompt_tokens, st.next,
            (predict_step M prompt_tokens prompt_len st).next⟩] ∧
      (predict_step M prompt_tokens prompt_len st).words = st.words ∧
      (predict_step M prompt_tokens prompt_len st).is_prompt = st.is_prompt := by
  simp [predict_step, h]

theorem predict_step_decode {st : GenState σ} (h : ¬ st.pos < prompt_len - 1) :
    (predict_step M prompt_tokens prompt_len st).calls
        = st.calls ++ [⟨st.pos, false, [st.next], st.next,
            (predict_step M prompt_tokens prompt_len st).next⟩] ∧
      (predict_step M prompt_tokens prompt_len st).words
        = (if (predict_step M prompt_tokens prompt_len st).next ≠ 151645 ∧
              (predict_step M prompt_tokens prompt_len st).next ≠ 151644
            then st.words ++ [(predict_step M prompt_tokens prompt_len st).next]
            else st.words) ∧
      (predict_step M prompt_tokens prompt_len st).is_prompt = false := by
  simp [predict_step, h]

/-- The run of the loop from position `j` of the prompt span when, in the call log of
the whole run, no prediction before position `m` is a terminator and the one at `m` is:
`m - j` more iterations in PROMPT mode, then one in DECODE mode, which leaves the loop
at `pos = m`. -/
theorem generate_loop_early_stop (m : Nat) (hlen : prompt_len = prompt_tokens.length)
    (hm : prompt_len = (m : Int) + 1) (hlimit : (m : Int) < total_steps) :
    ∀ (d j fuel : Nat) (st : GenState σ), d = m - j → j ≤ m → d < fuel →
      GenInv prompt_tokens prompt_len st → st.is_prompt = true → st.words = [] →
      st.pos = (j : Int) →
      st.calls.map PredictCall.pos = (List.range j).map Int.ofNat →
      st.calls.map PredictCall.is_prompt = List.replicate j true →
      (∀ c ∈ (generate_loop M prompt_tokens prompt_len total_steps fuel st).1.calls,
        c.pos < (m : Int) → M.is_sentence_ending c.next_out = false) →
      (∀ c ∈ (generate_loop M prompt_tokens prompt_len total_steps fuel st).1.calls,
        c.pos = (m : Int) → M.is_sentence_ending c.next_out = true) →
      (generate_loop M prompt_tokens prompt_len total_steps fuel st).2 = none ∧
      (generate_loop M prompt_tokens prompt_len total_steps fuel st).1.pos = (m : Int) ∧
      (generate_loop M prompt_tokens prompt_len total_steps fuel st).1.calls.map PredictCall.pos
        = (List.range (m + 1)).map Int.ofNat ∧
      (generate_loop M prompt_tokens prompt_len total_steps fuel st).1.calls.map
          PredictCall.is_prompt = List.replicate m true ++ [false] ∧
      ∃ last,
        (generate_loop M prompt_tokens prompt_len total_steps fuel st).1.calls.getLast?
          = some last ∧
        (generate_loop M prompt_tokens prompt_len total_steps fuel st).1.words
          = if last.next_out = 151645 ∨ last.next_out = 151644 then [] else [last.next_out] := by
  intro d
  induction d with
  | zero =>
    intro j fuel st hd hj hfuel hinv hp hw hpos hcp hci hprompt hdecode
    have hjm : j = m := by omega
    subst hjm
    obtain ⟨f, rfl⟩ : ∃ f, fuel = f + 1 := ⟨fuel - 1, by omega⟩
    have hnlt : ¬ st.pos < prompt_len - 1 := by omega
    obtain ⟨hc, hwords, hip⟩ := predict_step_decode M prompt_tokens prompt_len hnlt
    have hmem : (⟨st.pos, false, [st.next], st.next,
        (predict_step M prompt_tokens prompt_len st).next⟩ : PredictCall)
        ∈ (predict_step M prompt_tokens prompt_len st).calls := by
      rw [hc]; simp
    rw [generate_loop_succ, if_pos (by omega)] at hprompt hdecode ⊢
    by_cases hend : M.is_sentence_ending (predict_step M prompt_tokens prompt_len st).next = true
    · simp only [hend, if_true] at hprompt hdecode ⊢
      refine ⟨trivial, by rw [predict_step_pos, hpos], ?_, ?_,
        ⟨⟨st.pos, false, [st.next], st.next,
          (predict_step M prompt_tokens prompt_len st).next⟩, ?_, ?_⟩⟩
      · rw [hc, List.map_append, hcp, List.range_succ, List.map_append]
        simp [hpos]
      · rw [hc, List.map_append, hci]
        simp
      · rw [hc, List.getLast?_append]
        simp
      · rw [hwords, hw]
        by_cases hs : (predict_step M prompt_tokens prompt_len st).next = 151645 ∨
            (predict_step M prompt_tokens prompt_len st).next = 151644
        · rw [if_neg (by tauto), if_pos hs]
        · rw [if_pos (by tauto), if_neg hs]
          simp
    · exfalso
      obtain ⟨st2, h2, -, hcalls2, -, -, -⟩ := advance_ok M prompt_tokens prompt_len hlen hinv
      simp only [hend, h2] at hdecode
      have hpre := generate_loop_calls_prefix M prompt_tokens prompt_len total_steps f st2
      have := hdecode _ (hpre.subset (hcalls2 ▸ hmem)) hpos
      exact hend this
  | succ d ih =>
    intro j fuel st hd hj hfuel hinv hp hw hpos hcp hci hprompt hdecode
    obtain ⟨f, rfl⟩ : ∃ f, fuel = f + 1 := ⟨fuel - 1, by omega⟩
    have hlt : st.pos < prompt_len - 1 := by omega
    obtain ⟨hc, hwords, hip⟩ := predict_step_prompt M prompt_tokens prompt_len hlt
    have hmem : (⟨st.pos, st.is_prompt, prompt_tokens, st.next,
        (predict_step M prompt_tokens prompt_len st).next⟩ : PredictCall)
        ∈ (predict_step M prompt_tokens prompt_len st).calls := by
      rw [hc]; simp
    rw [generate_loop_succ, if_pos (by omega)] at hprompt hdecode ⊢
    by_cases hend : M.is_sentence_ending (predict_step M prompt_tokens prompt_len st).next = true
    · exfalso
      simp only [hend, if_true] at hprompt
      have := hprompt _ hmem (by simp only []; omega)
      simp only [] at this
      rw [hend] at this
      exact absurd this (by simp)
    · obtain ⟨st2, h2, hpos2, hcalls2, hwords2, hip2, hinv2⟩ :=
        advance_ok M prompt_tokens prompt_len hlen hinv
      simp only [hend, h2] at hprompt hdecode ⊢
      refine ih (j + 1) f st2 (by omega) (by omega) (by omega) hinv2 (by rw [hip2, hip, hp])
        (by rw [hwords2, hwords, hw]) (by rw [hpos2, hpos]; simp) ?_ ?_ hprompt hdecode
      · rw [hcalls2, hc, List.map_append, hcp, List.range_succ, List.map_append]
        simp [hpos]
      · rw [hcalls2, hc, List.map_append, hci, List.replicate_succ']
        simp [hp]

end loop

theorem start_state_inv {σ : Type} (engine : σ) (tokens : List Int) (next : Int) :
    GenInv tokens tokens.length (start_state engine tokens next) := by
  refine ⟨le_refl _, fun _ => rfl, fun hf => by simp [start_state] at hf, rfl, ?_⟩
  intro c hc
  simp [start_state] at hc

/-- For a non-empty tokenization `generate` returns: its outcome is the state in which
the loop is left, with the step count `min pos total_steps` and the scrubbed text. -/
theorem generate_run {σ : Type} (M : Qwen3Model σ) (engine : σ) (sentence : Str)
    (total_steps : Int) (t : Int) (ts : List Int) (h : M.encode sentence = t :: ts) :
    ∃ text,
      filter_think_tags (M.decode (generate_loop M (t :: ts) ((t :: ts).length : Nat)
        total_steps (total_steps.toNat + 1) (start_state engine (t :: ts) t)).1.words)
        = some text ∧
      generate M engine sentence total_steps =
        { result := .ok (min (generate_loop M (t :: ts) ((t :: ts).length : Nat) total_steps
              (total_steps.toNat + 1) (start_state engine (t :: ts) t)).1.pos total_steps, text)
          words := (generate_loop M (t :: ts) ((t :: ts).length : Nat) total_steps
              (total_steps.toNat + 1) (start_state engine (t :: ts) t)).1.words
          engine := (generate_loop M (t :: ts) ((t :: ts).length : Nat) total_steps
              (total_steps.toNat + 1) (start_state engine (t :: ts) t)).1.engine
          calls := (generate_loop M (t :: ts) ((t :: ts).length : Nat) total_steps
              (total_steps.toNat + 1) (start_state engine (t :: ts) t)).1.calls } := by
  have hok := generate_loop_ok M (t :: ts) ((t :: ts).length : Nat) total_steps rfl
    (total_steps.toNat + 1) (start_state engine (t :: ts) t)
    (start_state_inv engine (t :: ts) t) (by simp [start_state])
  obtain ⟨text, htext, -⟩ := filter_think_tags_total
    (M.decode (generate_loop M (t :: ts) ((t :: ts).length : Nat)
        total_steps (total_steps.toNat + 1) (start_state engine (t :: ts) t)).1.words)
  refine ⟨text, htext, ?_⟩
  have hv : vector_at (t :: ts) 0 = .ok t := rfl
  unfold generate
  simp only [h, List.isEmpty_cons, Bool.false_eq_true, if_false, hv, hok.1, htext]


/-- C8. `generate` ends in the fatal empty-prompt condition exactly when the
tokenization of the prompt is empty; then no `predict` call has been made, the engine
state is untouched and nothing is returned.  For every non-empty tokenization `generate`
returns a step count and a text. -/
theorem generate_empty_tokens_iff {σ : Type} (M : Qwen3Model σ) (engine : σ) (sentence : Str)
    (total_steps : Int) :
    ((generate M engine sentence total_steps).result = .error .empty_tokens
        ↔ M.encode sentence = []) ∧
      (M.encode sentence = [] →
        (generate M engine sentence total_steps).calls = [] ∧
        (generate M engine sentence total_steps).engine = engine ∧
        (generate M engine sentence total_steps).words = []) ∧
      (M.encode sentence ≠ [] →
        ∃ steps text, (generate M engine sentence total_steps).result = .ok (steps, text)) := by
  cases h : M.encode sentence with
  | nil =>
    have e : generate M engine sentence total_steps
        = { result := .error .empty_tokens, words := [], engine := engine, calls := [] } := by
      simp [generate, h]
    rw [e]
    simp
  | cons t ts =>
    obtain ⟨text, -, e⟩ := generate_run M engine sentence total_steps t ts h
    rw [e]
    simp

/-- C9. Early stop at the first DECODE step.  When the prompt has `n ≥ 1` tokens,
`total_steps ≥ n`, no prediction made at a position before `n - 1` in the run is a
sentence terminator and the one made at position `n - 1` is, `generate` returns
`n - 1` as step count; the `predict` calls were made at the positions `0, ..., n - 1`, in
PROMPT mode before `n - 1` and in DECODE mode at `n - 1`, and `words` holds just the
token predicted by the last call, or nothing when that is 151645 or 151644. -/
theorem generate_early_stop {σ : Type} (M : Qwen3Model σ) (engine : σ) (sentence : Str)
    (total_steps : Int) (n : Nat) (hn : (M.encode sentence).length = n) (hpos : 1 ≤ n)
    (hlimit : (n : Int) ≤ total_steps)
    (hprompt : ∀ c ∈ (generate M engine sentence total_steps).calls,
      c.pos < (n : Int) - 1 → M.is_sentence_ending c.next_out = false)
    (hdecode : ∀ c ∈ (generate M engine sentence total_steps).calls,
      c.pos = (n : Int) - 1 → M.is_sentence_ending c.next_out = true) :
    ∃ text last,
      (generate M engine sentence total_steps).result = .ok ((n : Int) - 1, text) ∧
      (generate M engine sentence total_steps).calls.map PredictCall.pos
        = (List.range n).map Int.ofNat ∧
      (generate M engine sentence total_steps).calls.map PredictCall.is_prompt
        = List.replicate (n - 1) true ++ [false] ∧
      (generate M engine sentence total_steps).calls.getLast? = some last ∧
      (generate M engine sentence total_steps).words
        = if last.next_out = 151645 ∨ last.next_out = 151644 then [] else [last.next_out] := by
  cases h : M.encode sentence with
  | nil => simp [h] at hn; omega
  | cons t ts =>
    obtain ⟨text, -, e⟩ := generate_run M engine sentence total_steps t ts h
    have hn2 : n = ts.length + 1 := by rw [← hn, h]; rfl
    subst hn2
    rw [e] at hprompt hdecode ⊢
    simp only [] at hprompt hdecode ⊢
    obtain ⟨-, h2, h3, h4, last, h5, h6⟩ :=
      generate_loop_early_stop M (t :: ts) ((t :: ts).length : Nat) total_steps ts.length rfl
        (by simp) (by push_cast at hlimit; omega) ts.length 0 (total_steps.toNat + 1)
        (start_state engine (t :: ts) t) (by omega) (by omega) (by omega)
        (start_state_inv engine (t :: ts) t) rfl rfl rfl (by simp [start_state])
        (by simp [start_state])
        (fun c hc hlt => hprompt c hc (by push_cast; omega))
        (fun c hc heq => hdecode c hc (by push_cast; omega))
    refine ⟨text, last, ?_, h3, by simpa using h4, h5, h6⟩
    rw [h2, min_eq_left (by push_cast at hlimit; omega)]
    push_cast
    simp

/-- The theorem `generate_early_stop` for the toy engine on a 3-token prompt with
`total_steps = 10`. -/
theorem generate_early_stop_witness :
    ∃ text last,
      (generate toyModel 0 "abc".toList 10).result = .ok (((3 : Nat) : Int) - 1, text) ∧
      (generate toyModel 0 "abc".toList 10).calls.map PredictCall.pos
        = (List.range 3).map Int.ofNat ∧
      (generate toyModel 0 "abc".toList 10).calls.map PredictCall.is_prompt
        = List.replicate (3 - 1) true ++ [false] ∧
      (generate toyModel 0 "abc".toList 10).calls.getLast? = some last ∧
      (generate toyModel 0 "abc".toList 10).words
        = if last.next_out = 151645 ∨ last.next_out = 151644 then [] else [last.next_out] :=
  generate_early_stop toyModel 0 "abc".toList 10 3 (by decide) (by decide) (by decide)
    (by decide) (by decide)

/-! ## The single-turn template, prompt extension, and the open marker after the scrub -/

theorem find_template_format : find "%s".toList TEMPLATE_FORMAT = some 17 := by decide

/-- C12. `fill_template` wraps the content, whatever it contains, in the user wrapper
followed by the open assistant wrapper, and so returns what `build_conversation` returns
on the empty history. -/
theorem fill_template_eq (content : Str) :
    fill_template content
        = "<|im_start|>user\n".toList ++ content
            ++ "<|im_end|>\n<|im_start|>assistant\n".toList ∧
      fill_template content = build_conversation [] content := by
  have h : fill_template content
      = "<|im_start|>user\n".toList ++ content
          ++ "<|im_end|>\n<|im_start|>assistant\n".toList := by
    simp only [fill_template, find_template_format, replace]
    rfl
  refine ⟨h, ?_⟩
  rw [h]
  simp only [build_conversation, List.foldl_nil, List.nil_append, List.append_assoc]
  rfl

/-- C20. Rendering extends the previous prompt: the prompt for the history `h` with the
turn `(u, a)` appended and the input `x` is the prompt for `h` and `u`, followed by `a`,
the closing delimiter and the prompt for the empty history and `x`; so the previous
prompt is a prefix of the next one. -/
theorem build_conversation_append (h : List (Str × Str)) (u a x : Str) :
    build_conversation (h ++ [(u, a)]) x
        = build_conversation h u ++ a ++ "<|im_end|>\n".toList ++ build_conversation [] x ∧
      build_conversation h u <+: build_conversation (h ++ [(u, a)]) x := by
  have e : build_conversation (h ++ [(u, a)]) x
      = build_conversation h u ++ a ++ "<|im_end|>\n".toList ++ build_conversation [] x := by
    simp only [build_conversation, List.foldl_append, List.foldl_cons, List.foldl_nil,
      write_turn, List.nil_append, List.append_assoc]
    rfl
  refine ⟨e, ?_⟩
  rw [e, List.append_assoc, List.append_assoc]
  exact List.prefix_append _ _

/-- C17. For every text the scrub loop ends, and the text returned has no occurrence of
the open marker, also where a deletion joins the two sides of a removed span into a new
marker, as in `"<th<think>x</think>ink>"`, of which nothing is left. -/
theorem filter_think_tags_no_open_marker (text : Str) :
    (∃ r, think_loop (text.length + 1) text = some r ∧
      filter_think_tags text = some (trim_leading r) ∧
      ¬ THINK_OPEN <:+: r ∧ ¬ THINK_OPEN <:+: trim_leading r) ∧
    filter_think_tags "<th<think>x</think>ink>".toList = some [] := by
  refine ⟨?_, by decide⟩
  obtain ⟨r, hr⟩ := think_loop_terminates (text.length + 1) text (by omega)
  have hn := think_loop_no_open hr
  refine ⟨r, hr, by simp [filter_think_tags, filter_think_tags_fuel, hr], ?_, ?_⟩
  · exact (find_eq_none_iff _ _).1 hn
  · exact (find_eq_none_iff _ _).1 (find_none_of_suffix hn (trim_leading_suffix r))

/-! ## The run of the generation loop, step by step -/

theorem vector_at_eq_ok {v : List Int} {i x : Int} (h : vector_at v i = .ok x) :
    0 ≤ i ∧ v.get? i.toNat = some x := by
  unfold vector_at at h
  split at h
  · rename_i h0
    split at h
    · rename_i y hy
      cases h
      exact ⟨h0, hy⟩
    · cases h
  · cases h

theorem advance_next {σ : Type} {st st2 : GenState σ} (h : advance st = .ok st2) :
    (st.is_prompt = true → vector_at st.tokens (st.pos + 1) = .ok st2.next) ∧
      (st.is_prompt = false → st2.next = st.next) := by
  unfold advance at h
  split at h
  · rename_i hp
    split at h
    · rename_i x hx
      cases h
      exact ⟨fun _ => hx, fun hf => by simp [hp] at hf⟩
    · cases h
  · rename_i hp
    cases h
    exact ⟨fun ht => absurd ht hp, fun _ => rfl⟩

section induct
variable {σ : Type} (M : Qwen3Model σ) (prompt_tokens : List Int) (prompt_len : Int)
  (total_steps : Int)

/-- Induction over the iterations of the loop: a property `P` of the loop head that each
completed iteration preserves gives `Q` of the way the loop is left, be it by its
condition or by `break`; the iteration bound is not reached. -/
theorem generate_loop_induct (P : GenState σ → Prop)
    (Q : GenState σ × Option GenError → Prop)
    (hexit : ∀ st, P st → ¬ st.pos < total_steps → Q (st, none))
    (hbreak : ∀ st, P st → st.pos < total_steps →
      M.is_sentence_ending (predict_step M prompt_tokens prompt_len st).next = true →
      Q (predict_step M prompt_tokens prompt_len st, none))
    (hstep : ∀ st, P st → st.pos < total_steps →
      M.is_sentence_ending (predict_step M prompt_tokens prompt_len st).next = false →
      ∃ st2, advance (predict_step M prompt_tokens prompt_len st) = .ok st2 ∧
        st2.pos = st.pos + 1 ∧ P st2) :
    ∀ (fuel : Nat) (st : GenState σ), P st → (total_steps - st.pos).toNat < fuel →
      Q (generate_loop M prompt_tokens prompt_len total_steps fuel st) := by
  intro fuel
  induction fuel with
  | zero => intro st _ hf; omega
  | succ n ih =>
    intro st hP hf
    rw [generate_loop_succ]
    by_cases hlt : st.pos < total_steps
    · rw [if_pos hlt]
      by_cases hend : M.is_sentence_ending (predict_step M prompt_tokens prompt_len st).next = true
      · rw [if_pos hend]
        exact hbreak st hP hlt hend
      · rw [if_neg hend]
        obtain ⟨st2, h2, hpos, hP2⟩ := hstep st hP hlt (by simpa using hend)
        simp only [h2]
        exact ih st2 hP2 (by omega)
    · rw [if_neg hlt]
      exact hexit st hP hlt

end induct

section run
variable {σ : Type} (M : Qwen3Model σ) (tokens : List Int) (total_steps : Int)

/-- The call that an iteration from a loop head adds to the log. -/
theorem predict_step_call {st : GenState σ} (h : HeadInv M tokens total_steps st) :
    ∃ c : PredictCall,
      (predict_step M tokens tokens.length st).calls = st.calls ++ [c] ∧
      c.pos = st.pos ∧ c.next_in = st.next ∧
      c.next_out = (predict_step M tokens tokens.length st).next ∧
      (c.is_prompt = true ↔ st.pos < (tokens.length : Int) - 1) ∧
      (c.is_prompt = true → c.tokens = tokens) ∧
      (c.is_prompt = false → c.tokens = [c.next_in]) ∧
      (predict_step M tokens tokens.length st).is_prompt = c.is_prompt := by
  by_cases hlt : st.pos < (tokens.length : Int) - 1
  · obtain ⟨hc, -, hip⟩ := predict_step_prompt M tokens tokens.length hlt
    have hp := (h.next_prompt (by omega)).1
    exact ⟨_, hc, rfl, rfl, rfl, by simp [hp, hlt], fun _ => rfl,
      fun hf => by simp [hp] at hf, hip⟩
  · obtain ⟨hc, -, hip⟩ := predict_step_decode M tokens tokens.length hlt
    exact ⟨_, hc, rfl, rfl, rfl, by simp [hlt], fun hf => by simp at hf,
      fun _ => rfl, hip⟩

theorem logOK_step {st : GenState σ} (h : HeadInv M tokens total_steps st) :
    LogOK tokens (predict_step M tokens tokens.length st).calls := by
  obtain ⟨c, hc, hcpos, hcin, -, hcp, hct, hcd, -⟩ := predict_step_call M tokens total_steps h
  have hlen := h.calls_len
  have hpos0 := h.inv.pos_nonneg
  rw [hc]
  intro i d hd
  by_cases hi : i < st.calls.length
  · rw [List.getElem?_append_left hi] at hd
    obtain ⟨h1, h2, h3, h4, h5, h6⟩ := h.log i d hd
    refine ⟨h1, h2, h3, h4, h5, fun hgt => ?_⟩
    obtain ⟨prev, hprev, hpe⟩ := h6 hgt
    exact ⟨prev, by rw [List.getElem?_append_left (by omega)]; exact hprev, hpe⟩
  · have hi2 : i = st.calls.length := by
      by_contra hne
      have : (st.calls ++ [c])[i]? = none := by
        rw [List.getElem?_eq_none]
        simp only [List.length_append, List.length_singleton]; omega
      rw [this] at hd; cases hd
    subst hi2
    have hdc : d = c := by
      rw [List.getElem?_append_right (le_refl _)] at hd
      simpa using hd.symm
    subst hdc
    refine ⟨by omega, by rw [hcp, ← hlen], hct, hcd, fun hle => ?_, fun hgt => ?_⟩
    · have := (h.next_prompt (by omega)).2
      have e : st.pos.toNat = st.calls.length := by omega
      rw [e] at this
      rw [hcin]; exact this
    · obtain ⟨prev, hprev, hpe⟩ := h.next_decode (by omega)
      obtain ⟨hb, -⟩ := List.getElem?_eq_some.1 hprev
      exact ⟨prev, by rw [List.getElem?_append_left hb]; exact hprev,
        by rw [hcin]; exact hpe⟩

theorem headInv_words_step {st : GenState σ} (h : HeadInv M tokens total_steps st) :
    ((predict_step M tokens tokens.length st).words.length : Int)
      ≤ max 0 (st.pos + 1 - ((tokens.length : Int) - 1)) := by
  have hw := h.words_len
  by_cases hlt : st.pos < (tokens.length : Int) - 1
  · rw [(predict_step_prompt M tokens tokens.length hlt).2.1]
    omega
  · rw [(predict_step_decode M tokens tokens.length hlt).2.1]
    split
    · simp only [List.length_append, List.length_singleton]
      push_cast
      omega
    · omega

/-- A completed iteration leads from a loop head to a loop head. -/
theorem headInv_step {st : GenState σ} (h : HeadInv M tokens total_steps st)
    (hlt : st.pos < total_steps)
    (hend : M.is_sentence_ending (predict_step M tokens tokens.length st).next = false) :
    ∃ st2, advance (predict_step M tokens tokens.length st) = .ok st2 ∧
      st2.pos = st.pos + 1 ∧ HeadInv M tokens total_steps st2 := by
  obtain ⟨st2, h2, hpos2, hcalls2, hwords2, hip2, hinv2⟩ :=
    advance_ok M tokens tokens.length rfl h.inv
  obtain ⟨c, hc, hcpos, hcin, hcout, hcp, hct, hcd, hcip⟩ :=
    predict_step_call M tokens total_steps h
  obtain ⟨hn1, hn2⟩ := advance_next h2
  have hinv1 := predict_step_inv M tokens tokens.length h.inv
  have hlen := h.calls_len
  have hpos0 := h.inv.pos_nonneg
  refine ⟨st2, h2, hpos2, ⟨hinv2, ?_, by omega, ?_, ?_, ?_, ?_, ?_⟩⟩
  · rw [hcalls2, hc, hpos2, List.length_append, List.length_singleton]
    push_cast; omega
  · rw [hcalls2]; exact logOK_step M tokens total_steps h
  · intro d hd
    rw [hcalls2, hc] at hd
    rcases List.mem_append.1 hd with hd | hd
    · exact h.no_term d hd
    · rw [List.mem_singleton.1 hd, hcout]; exact hend
  · intro hle
    have hp : c.is_prompt = true := hcp.2 (by omega)
    have hp1 : (predict_step M tokens tokens.length st).is_prompt = true := hcip.trans hp
    refine ⟨hip2.trans hp1, ?_⟩
    have hv := hn1 hp1
    rw [hinv1.tokens_eq hp1, predict_step_pos] at hv
    rw [hpos2]
    have := (vector_at_eq_ok hv).2
    rw [List.get?_eq_getElem?] at this
    exact this
  · intro hgt
    have hp : c.is_prompt = false := by
      cases hb : c.is_prompt with
      | false => rfl
      | true => have := hcp.1 hb; omega
    have hp1 : (predict_step M tokens tokens.length st).is_prompt = false := hcip.trans hp
    refine ⟨c, ?_, ?_⟩
    · rw [hcalls2, hc]
      simp
    · rw [hn2 hp1, hcout]
  · rw [hwords2, hpos2]
    exact headInv_words_step M tokens total_steps h

/-- From a loop head, the loop is left in one of the two ways of `FinalOK`. -/
theorem generate_loop_final (hne : 0 < tokens.length) (fuel : Nat) (st : GenState σ)
    (h : HeadInv M tokens total_steps st) (hfuel : (total_steps - st.pos).toNat < fuel) :
    FinalOK M tokens total_steps
      (generate_loop M tokens tokens.length total_steps fuel st) := by
  refine generate_loop_induct M tokens tokens.length total_steps
    (HeadInv M tokens total_steps) (FinalOK M tokens total_steps) ?_ ?_ ?_ fuel st h hfuel
  · intro st h hge
    have hw := h.words_len
    have hp := h.pos_le
    have h0 := h.inv.pos_nonneg
    exact ⟨rfl, h.inv, h.log, h.pos_le, by simp only []; omega,
      Or.inl ⟨hge, h.calls_len, h.no_term⟩⟩
  · intro st h hlt hend
    obtain ⟨c, hc, -, -, hcout, -⟩ := predict_step_call M tokens total_steps h
    have hw := headInv_words_step M tokens total_steps h
    have hpos := predict_step_pos M tokens tokens.length st
    refine ⟨rfl, predict_step_inv M tokens tokens.length h.inv,
      logOK_step M tokens total_steps h, ?_, ?_, Or.inr ⟨?_, st.calls, c, hc, ?_, h.no_term, ?_⟩⟩
    · simp only [hpos]; exact h.pos_le
    · simp only []; omega
    · simp only [hpos]; exact hlt
    · simp only [hpos]; exact h.calls_len
    · rw [hcout]; exact hend
  · intro st h hlt hend
    exact headInv_step M tokens total_steps h hlt hend

end run

theorem start_state_headInv {σ : Type} (M : Qwen3Model σ) (engine : σ) (t : Int)
    (ts : List Int) (total_steps : Int) :
    HeadInv M (t :: ts) total_steps (start_state engine (t :: ts) t) := by
  refine ⟨start_state_inv engine (t :: ts) t, rfl, ?_, ?_, ?_, ?_, ?_, ?_⟩
  · simp only [start_state]; omega
  · intro i c hc
    simp [start_state] at hc
  · intro c hc
    simp [start_state] at hc
  · intro _
    exact ⟨rfl, by simp [start_state]⟩
  · intro hgt
    simp only [start_state, List.length_cons] at hgt
    push_cast at hgt
    omega
  · simp only [start_state, List.length_nil, List.length_cons]
    push_cast
    omega

/-- The way the loop of `generate` is left, for a non-empty tokenization. -/
theorem generate_final {σ : Type} (M : Qwen3Model σ) (engine : σ) (t : Int) (ts : List Int)
    (total_steps : Int) :
    FinalOK M (t :: ts) total_steps
      (generate_loop M (t :: ts) ((t :: ts).length : Nat) total_steps (total_steps.toNat + 1)
        (start_state engine (t :: ts) t)) :=
  generate_loop_final M (t :: ts) total_steps (by simp) (total_steps.toNat + 1)
    (start_state engine (t :: ts) t) (start_state_headInv M engine t ts total_steps)
    (by simp [start_state])


/-! ## Step count, phases, teacher forcing, index safety, output bound -/

theorem generate_empty {σ : Type} (M : Qwen3Model σ) (engine : σ) (sentence : Str)
    (total_steps : Int) (h : M.encode sentence = []) :
    generate M engine sentence total_steps
      = { result := .error .empty_tokens, words := [], engine := engine, calls := [] } := by
  simp [generate, h]

/-- C11. For a non-empty tokenization and `total_steps ≥ 0`, `generate` returns
`min pos total_steps`, which is the value of `pos` when the loop is left; it lies between
0 and `total_steps`, is `total_steps` when no prediction of the run is a sentence
terminator, and is the position of the call whose prediction is a sentence terminator
when there is one. -/
theorem generate_steps_taken {σ : Type} (M : Qwen3Model σ) (engine : σ) (sentence : Str)
    (total_steps : Int) (t : Int) (ts : List Int) (h : M.encode sentence = t :: ts)
    (hlimit : 0 ≤ total_steps) :
    ∃ steps text,
      (generate M engine sentence total_steps).result = .ok (steps, text) ∧
      steps = (generate_loop M (t :: ts) ((t :: ts).length : Nat) total_steps
        (total_steps.toNat + 1) (start_state engine (t :: ts) t)).1.pos ∧
      0 ≤ steps ∧ steps ≤ total_steps ∧
      ((∀ c ∈ (generate M engine sentence total_steps).calls,
          M.is_sentence_ending c.next_out = false) → steps = total_steps) ∧
      (∀ c ∈ (generate M engine sentence total_steps).calls,
          M.is_sentence_ending c.next_out = true → steps = c.pos) := by
  obtain ⟨text, -, e⟩ := generate_run M engine sentence total_steps t ts h
  have F := generate_final M engine t ts total_steps
  have hle := F.pos_le
  have h0 := F.inv.pos_nonneg
  have hmin : min (generate_loop M (t :: ts) ((t :: ts).length : Nat) total_steps
      (total_steps.toNat + 1) (start_state engine (t :: ts) t)).1.pos total_steps
      = (generate_loop M (t :: ts) ((t :: ts).length : Nat) total_steps
      (total_steps.toNat + 1) (start_state engine (t :: ts) t)).1.pos :=
    min_eq_left (by omega)
  rw [e]
  simp only [hmin]
  refine ⟨_, text, rfl, rfl, h0, by omega, ?_, ?_⟩
  · intro hno
    rcases F.exit with ⟨hge, -, -⟩ | ⟨-, init, last, hcalls, -, -, hlast⟩
    · omega
    · have := hno last (by rw [hcalls]; simp)
      rw [hlast] at this
      cases this
  · intro c hc hend
    rcases F.exit with ⟨-, -, hno⟩ | ⟨-, init, last, hcalls, hlen, hinit, -⟩
    · have := hno c hc
      rw [hend] at this
      cases this
    · rw [hcalls] at hc
      rcases List.mem_append.1 hc with hc | hc
      · have := hinit c hc
        rw [hend] at this
        cases this
      · rw [List.mem_singleton.1 hc]
        have hl : (generate_loop M (t :: ts) ((t :: ts).length : Nat) total_steps
            (total_steps.toNat + 1) (start_state engine (t :: ts) t)).1.calls[init.length]?
            = some last := by
          rw [hcalls, List.getElem?_append_right (le_refl _)]
          simp
        rw [(F.log init.length last hl).1, hlen]

/-- The theorem `generate_steps_taken` for the toy engine on the prompt `"abc"`, whose
tokens are 97, 98, 99, with `total_steps = 10`. -/
theorem generate_steps_taken_witness :
    ∃ steps text,
      (generate toyModel 0 "abc".toList 10).result = .ok (steps, text) ∧
      steps = (generate_loop toyModel (97 :: [98, 99]) ((97 :: [98, 99] : List Int).length : Nat)
        10 ((10 : Int).toNat + 1) (start_state 0 (97 :: [98, 99]) 97)).1.pos ∧
      0 ≤ steps ∧ steps ≤ 10 ∧
      ((∀ c ∈ (generate toyModel 0 "abc".toList 10).calls,
          toyModel.is_sentence_ending c.next_out = false) → steps = 10) ∧
      (∀ c ∈ (generate toyModel 0 "abc".toList 10).calls,
          toyModel.is_sentence_ending c.next_out = true → steps = c.pos) :=
  generate_steps_taken toyModel 0 "abc".toList 10 97 [98, 99] (by decide) (by decide)

/-- C18. No `tokens.at(...)` of `generate` is out of range: `generate` never ends with
the exception `std::out_of_range`, whatever the prompt, `total_steps` and the engine; for
a non-empty tokenization `tokens.at(0)` has a value, and after every call in PROMPT mode
the index `pos + 1` is an index of the tokenization. -/
theorem generate_no_out_of_range {σ : Type} (M : Qwen3Model σ) (engine : σ) (sentence : Str)
    (total_steps : Int) :
    (generate M engine sentence total_steps).result ≠ .error .out_of_range ∧
      (M.encode sentence ≠ [] → ∃ x, vector_at (M.encode sentence) 0 = .ok x) ∧
      (∀ c ∈ (generate M engine sentence total_steps).calls, c.is_prompt = true →
        ∃ x, vector_at (M.encode sentence) (c.pos + 1) = .ok x) := by
  cases h : M.encode sentence with
  | nil =>
    rw [generate_empty M engine sentence total_steps h]
    simp
  | cons t ts =>
    obtain ⟨text, -, e⟩ := generate_run M engine sentence total_steps t ts h
    have F := generate_final M engine t ts total_steps
    rw [e]
    refine ⟨by simp, fun _ => ⟨t, rfl⟩, ?_⟩
    intro c hc hp
    simp only [] at hc
    obtain ⟨i, hi⟩ := List.getElem?_of_mem hc
    obtain ⟨h1, h2, -⟩ := F.log i c hi
    have hlt := h2.1 hp
    exact vector_at_ok (t :: ts) (c.pos + 1) (by omega) (by omega)

theorem map_eq_range_map {α β : Type} (L : List α) (f : α → β) (g : Nat → β)
    (h : ∀ i c, L[i]? = some c → f c = g i) : L.map f = (List.range L.length).map g := by
  apply List.ext_getElem?
  intro i
  rw [List.getElem?_map, List.getElem?_map]
  by_cases hi : i < L.length
  · rw [List.getElem?_eq_getElem hi, List.getElem?_range hi]
    simp only [Option.map_some']
    rw [h i L[i] (List.getElem?_eq_getElem hi)]
  · rw [List.getElem?_eq_none (by omega), List.getElem?_eq_none (by simp; omega)]
    rfl

theorem range_map_lt (k m : Nat) (hm : m ≤ k) :
    (List.range k).map (fun i => decide (i < m))
      = List.replicate m true ++ List.replicate (k - m) false := by
  apply List.ext_getElem?
  intro i
  rw [List.getElem?_map]
  by_cases hi : i < k
  · rw [List.getElem?_range hi]
    by_cases him : i < m
    · rw [List.getElem?_append_left (by simpa using him)]
      simp [List.getElem?_replicate, him]
    · rw [List.getElem?_append_right (by simpa using him)]
      simp [List.getElem?_replicate, him]
      omega
  · rw [List.getElem?_eq_none (by simp; omega), List.getElem?_eq_none (by simp; omega)]
    rfl

/-- C14. Phase tracking, read off the log of the `predict` calls of a run.  The call with
index `i` is made at position `i`, so the position grows by 1 with every completed step,
and it is made in PROMPT mode exactly when `i < prompt_len - 1`.  When
`total_steps ≥ prompt_len` and no prediction made in PROMPT mode is a sentence
terminator, the run has a call at position `prompt_len - 1`: the modes of the calls are
`prompt_len - 1` times PROMPT followed by DECODE only, at least once; for
`prompt_len = 1` the first call is in DECODE mode. -/
theorem generate_phase_switch {σ : Type} (M : Qwen3Model σ) (engine : σ) (sentence : Str)
    (total_steps : Int) (n : Nat) (hn : (M.encode sentence).length = n) (hpos : 1 ≤ n)
    (hlimit : (n : Int) ≤ total_steps)
    (hprompt : ∀ c ∈ (generate M engine sentence total_steps).calls,
      c.is_prompt = true → M.is_sentence_ending c.next_out = false) :
    (generate M engine sentence total_steps).calls.map PredictCall.pos
        = (List.range (generate M engine sentence total_steps).calls.length).map Int.ofNat ∧
      (∀ i c, (generate M engine sentence total_steps).calls[i]? = some c →
        (c.is_prompt = true ↔ i < n - 1)) ∧
      n ≤ (generate M engine sentence total_steps).calls.length ∧
      (generate M engine sentence total_steps).calls.map PredictCall.is_prompt
        = List.replicate (n - 1) true
            ++ List.replicate ((generate M engine sentence total_steps).calls.length - (n - 1))
                false ∧
      (n = 1 → ∃ c, (generate M engine sentence total_steps).calls[0]? = some c ∧
        c.is_prompt = false) := by
  cases h : M.encode sentence with
  | nil => simp [h] at hn; omega
  | cons t ts =>
    obtain ⟨text, -, e⟩ := generate_run M engine sentence total_steps t ts h
    have F := generate_final M engine t ts total_steps
    have hn2 : n = ts.length + 1 := by rw [← hn, h]; rfl
    subst hn2
    rw [e] at hprompt ⊢
    simp only [] at hprompt ⊢
    generalize (generate_loop M (t :: ts) ((t :: ts).length : Nat) total_steps
      (total_steps.toNat + 1) (start_state engine (t :: ts) t)) = fin at F hprompt ⊢
    have hphase : ∀ i c, fin.1.calls[i]? = some c →
        (c.is_prompt = true ↔ i < ts.length + 1 - 1) := by
      intro i c hc
      rw [(F.log i c hc).2.1]
      simp only [List.length_cons]
      push_cast
      omega
    have hlen : ts.length + 1 ≤ fin.1.calls.length := by
      rcases F.exit with ⟨hge, hl, -⟩ | ⟨-, init, last, hcalls, -, -, hlast⟩
      · push_cast at hlimit
        omega
      · have hl : fin.1.calls[init.length]? = some last := by
          rw [hcalls, List.getElem?_append_right (le_refl _)]
          simp
        have hnp : ¬ last.is_prompt = true := by
          intro hp
          have := hprompt last (by rw [hcalls]; simp) hp
          rw [hlast] at this
          cases this
        have := (hphase init.length last hl).not.1 hnp
        rw [hcalls, List.length_append, List.length_singleton]
        omega
    refine ⟨?_, hphase, hlen, ?_, ?_⟩
    · exact map_eq_range_map _ _ _ (fun i c hc => (F.log i c hc).1)
    · rw [← range_map_lt _ _ (by omega)]
      apply map_eq_range_map
      intro i c hc
      have := hphase i c hc
      cases hb : c.is_prompt with
      | true => rw [hb] at this; simpa using this.1 rfl
      | false =>
        rw [hb] at this
        have h2 : ¬ i < ts.length + 1 - 1 := fun hlt => by simpa using this.2 hlt
        simpa using h2
    · intro hone
      obtain ⟨c, hc⟩ : ∃ c, fin.1.calls[0]? = some c :=
        ⟨fin.1.calls[0], List.getElem?_eq_getElem (by omega)⟩
      refine ⟨c, hc, ?_⟩
      have := hphase 0 c hc
      cases hb : c.is_prompt with
      | false => rfl
      | true => rw [hb] at this; have := this.1 rfl; omega

/-- The theorem `generate_phase_switch` for the toy engine on the 3-token prompt `"abc"`
with `total_steps = 10`. -/
theorem generate_phase_switch_witness :
    (generate toyModel 0 "abc".toList 10).calls.map PredictCall.pos
        = (List.range (generate toyModel 0 "abc".toList 10).calls.length).map Int.ofNat ∧
      (∀ i c, (generate toyModel 0 "abc".toList 10).calls[i]? = some c →
        (c.is_prompt = true ↔ i < 3 - 1)) ∧
      3 ≤ (generate toyModel 0 "abc".toList 10).calls.length ∧
      (generate toyModel 0 "abc".toList 10).calls.map PredictCall.is_prompt
        = List.replicate (3 - 1) true
            ++ List.replicate ((generate toyModel 0 "abc".toList 10).calls.length - (3 - 1))
                false ∧
      (3 = 1 → ∃ c, (generate toyModel 0 "abc".toList 10).calls[0]? = some c ∧
        c.is_prompt = false) :=
  generate_phase_switch toyModel 0 "abc".toList 10 3 (by decide) (by decide) (by decide)
    (by decide)

/-! ## Two runs that differ in the predictions of the prompt span -/

section unfold
variable {σ : Type} (M : Qwen3Model σ) (prompt_tokens : List Int) (prompt_len : Int)
  (total_steps : Int)

theorem generate_loop_exit (fuel : Nat) {st : GenState σ} (h : ¬ st.pos < total_steps) :
    generate_loop M prompt_tokens prompt_len total_steps (fuel + 1) st = (st, none) := by
  rw [generate_loop_succ, if_neg h]

theorem generate_loop_break (fuel : Nat) {st : GenState σ} (h : st.pos < total_steps)
    (hend : M.is_sentence_ending (predict_step M prompt_tokens prompt_len st).next = true) :
    generate_loop M prompt_tokens prompt_len total_steps (fuel + 1) st
      = (predict_step M prompt_tokens prompt_len st, none) := by
  rw [generate_loop_succ, if_pos h, if_pos hend]

theorem generate_loop_continue (fuel : Nat) {st st2 : GenState σ} (h : st.pos < total_steps)
    (hend : M.is_sentence_ending (predict_step M prompt_tokens prompt_len st).next = false)
    (h2 : advance (predict_step M prompt_tokens prompt_len st) = .ok st2) :
    generate_loop M prompt_tokens prompt_len total_steps (fuel + 1) st
      = generate_loop M prompt_tokens prompt_len total_steps fuel st2 := by
  rw [generate_loop_succ, if_pos h, if_neg (by simp [hend])]
  simp only [h2]

/-- The call of an iteration is in the log with which the loop is left. -/
theorem predict_step_calls_sub (fuel : Nat) {st : GenState σ} (h : st.pos < total_steps) :
    (predict_step M prompt_tokens prompt_len st).calls
      <+: (generate_loop M prompt_tokens prompt_len total_steps (fuel + 1) st).1.calls := by
  rw [generate_loop_succ, if_pos h]
  split
  · exact List.prefix_refl _
  · split
    · rename_i st2 h2
      rw [← advance_calls h2]
      exact generate_loop_calls_prefix M prompt_tokens prompt_len total_steps fuel st2
    · exact List.prefix_refl _

end unfold

/-- Two runs of the loop on the same prompt, from loop heads that agree on `pos`, `next`,
`is_prompt` and `words`, are left at the same `pos` with the same `words`, when the
predictions that the two logs hold for the same position are equal in DECODE mode and
are both or neither sentence terminators in PROMPT mode. -/
theorem generate_loop_sim {σ₁ σ₂ : Type} (M₁ : Qwen3Model σ₁) (M₂ : Qwen3Model σ₂)
    (tokens : List Int) (total_steps : Int)
    (hend : M₁.is_sentence_ending = M₂.is_sentence_ending) :
    ∀ (fuel : Nat) (st₁ : GenState σ₁) (st₂ : GenState σ₂),
      GenInv tokens tokens.length st₁ → GenInv tokens tokens.length st₂ →
      st₁.pos = st₂.pos → st₁.next = st₂.next → st₁.is_prompt = st₂.is_prompt →
      st₁.words = st₂.words →
      (∀ c₁ ∈ (generate_loop M₁ tokens tokens.length total_steps fuel st₁).1.calls,
        ∀ c₂ ∈ (generate_loop M₂ tokens tokens.length total_steps fuel st₂).1.calls,
          c₁.pos = c₂.pos → c₁.is_prompt = false → c₁.next_out = c₂.next_out) →
      (∀ c₁ ∈ (generate_loop M₁ tokens tokens.length total_steps fuel st₁).1.calls,
        ∀ c₂ ∈ (generate_loop M₂ tokens tokens.length total_steps fuel st₂).1.calls,
          c₁.pos = c₂.pos → c₁.is_prompt = true →
            M₁.is_sentence_ending c₁.next_out = M₂.is_sentence_ending c₂.next_out) →
      (generate_loop M₁ tokens tokens.length total_steps fuel st₁).1.pos
          = (generate_loop M₂ tokens tokens.length total_steps fuel st₂).1.pos ∧
        (generate_loop M₁ tokens tokens.length total_steps fuel st₁).1.words
          = (generate_loop M₂ tokens tokens.length total_steps fuel st₂).1.words ∧
        (generate_loop M₁ tokens tokens.length total_steps fuel st₁).2
          = (generate_loop M₂ tokens tokens.length total_steps fuel st₂).2 := by
  intro fuel
  induction fuel with
  | zero =>
    intro st₁ st₂ _ _ hpos _ _ hw _ _
    exact ⟨hpos, hw, rfl⟩
  | succ f ih =>
    intro st₁ st₂ hi₁ hi₂ hpos hnext hip hw hdecode hprompt
    by_cases hlt : st₁.pos < total_steps
    · have hlt₂ : st₂.pos < total_steps := hpos ▸ hlt
      have hm₁ := (predict_step_calls_sub M₁ tokens tokens.length total_steps f hlt).subset
      have hm₂ := (predict_step_calls_sub M₂ tokens tokens.length total_steps f hlt₂).subset
      have hpp₁ := predict_step_pos M₁ tokens tokens.length st₁
      have hpp₂ := predict_step_pos M₂ tokens tokens.length st₂
      have key : M₁.is_sentence_ending (predict_step M₁ tokens tokens.length st₁).next
            = M₂.is_sentence_ending (predict_step M₂ tokens tokens.length st₂).next ∧
          (predict_step M₁ tokens tokens.length st₁).words
            = (predict_step M₂ tokens tokens.length st₂).words ∧
          (predict_step M₁ tokens tokens.length st₁).is_prompt
            = (predict_step M₂ tokens tokens.length st₂).is_prompt ∧
          ((predict_step M₁ tokens tokens.length st₁).is_prompt = false →
            (predict_step M₁ tokens tokens.length st₁).next
              = (predict_step M₂ tokens tokens.length st₂).next) := by
        by_cases hb : st₁.pos < (tokens.length : Int) - 1
        · have hb₂ : st₂.pos < (tokens.length : Int) - 1 := hpos ▸ hb
          obtain ⟨hc₁, hw₁, hq₁⟩ := predict_step_prompt M₁ tokens tokens.length hb
          obtain ⟨hc₂, hw₂, hq₂⟩ := predict_step_prompt M₂ tokens tokens.length hb₂
          have hp₁ : st₁.is_prompt = true := by
            cases hx : st₁.is_prompt with
            | true => rfl
            | false => have := hi₁.decode_pos hx; omega
          have hmem₁ : (⟨st₁.pos, st₁.is_prompt, tokens, st₁.next,
              (predict_step M₁ tokens tokens.length st₁).next⟩ : PredictCall)
              ∈ (predict_step M₁ tokens tokens.length st₁).calls := by rw [hc₁]; simp
          have hmem₂ : (⟨st₂.pos, st₂.is_prompt, tokens, st₂.next,
              (predict_step M₂ tokens tokens.length st₂).next⟩ : PredictCall)
              ∈ (predict_step M₂ tokens tokens.length st₂).calls := by rw [hc₂]; simp
          have := hprompt _ (hm₁ hmem₁) _ (hm₂ hmem₂) hpos hp₁
          refine ⟨this, by rw [hw₁, hw₂, hw], by rw [hq₁, hq₂, hip], ?_⟩
          intro hf
          rw [hq₁, hp₁] at hf
          cases hf
        · have hb₂ : ¬ st₂.pos < (tokens.length : Int) - 1 := hpos ▸ hb
          obtain ⟨hc₁, hw₁, hq₁⟩ := predict_step_decode M₁ tokens tokens.length hb
          obtain ⟨hc₂, hw₂, hq₂⟩ := predict_step_decode M₂ tokens tokens.length hb₂
          have hmem₁ : (⟨st₁.pos, false, [st₁.next], st₁.next,
              (predict_step M₁ tokens tokens.length st₁).next⟩ : PredictCall)
              ∈ (predict_step M₁ tokens tokens.length st₁).calls := by rw [hc₁]; simp
          have hmem₂ : (⟨st₂.pos, false, [st₂.next], st₂.next,
              (predict_step M₂ tokens tokens.length st₂).next⟩ : PredictCall)
              ∈ (predict_step M₂ tokens tokens.length st₂).calls := by rw [hc₂]; simp
          have hn : (predict_step M₁ tokens tokens.length st₁).next
              = (predict_step M₂ tokens tokens.length st₂).next :=
            hdecode _ (hm₁ hmem₁) _ (hm₂ hmem₂) hpos rfl
          refine ⟨by rw [hn, hend], by rw [hw₁, hw₂, hn, hw], by rw [hq₁, hq₂], fun _ => hn⟩
      obtain ⟨kend, kw, kip, kn⟩ := key
      by_cases he : M₁.is_sentence_ending (predict_step M₁ tokens tokens.length st₁).next = true
      · rw [generate_loop_break M₁ tokens tokens.length total_steps f hlt he,
          generate_loop_break M₂ tokens tokens.length total_steps f hlt₂ (kend ▸ he)]
        exact ⟨by rw [hpp₁, hpp₂, hpos], kw, rfl⟩
      · have he₁ : M₁.is_sentence_ending (predict_step M₁ tokens tokens.length st₁).next
            = false := by simpa using he
        have he₂ : M₂.is_sentence_ending (predict_step M₂ tokens tokens.length st₂).next
            = false := kend ▸ he₁
        obtain ⟨n₁, ha₁, hp₁, -, hw₁, hq₁, hj₁⟩ := advance_ok M₁ tokens tokens.length rfl hi₁
        obtain ⟨n₂, ha₂, hp₂, -, hw₂, hq₂, hj₂⟩ := advance_ok M₂ tokens tokens.length rfl hi₂
        rw [generate_loop_continue M₁ tokens tokens.length total_steps f hlt he₁ ha₁,
          generate_loop_continue M₂ tokens tokens.length total_steps f hlt₂ he₂ ha₂]
          at hdecode hprompt ⊢
        refine ih n₁ n₂ hj₁ hj₂ (by rw [hp₁, hp₂, hpos]) ?_ (by rw [hq₁, hq₂, kip])
          (by rw [hw₁, hw₂, kw]) hdecode hprompt
        obtain ⟨hv₁, hd₁⟩ := advance_next ha₁
        obtain ⟨hv₂, hd₂⟩ := advance_next ha₂
        cases hx : (predict_step M₁ tokens tokens.length st₁).is_prompt with
        | true =>
          have h₁ := hv₁ hx
          have h₂ := hv₂ (kip ▸ hx)
          rw [(predict_step_inv M₁ tokens tokens.length hi₁).tokens_eq hx, hpp₁] at h₁
          rw [(predict_step_inv M₂ tokens tokens.length hi₂).tokens_eq (kip ▸ hx), hpp₂,
            ← hpos, h₁] at h₂
          exact Except.ok.inj h₂
        | false =>
          rw [hd₁ hx, hd₂ (kip ▸ hx)]
          exact kn hx
    · have hlt₂ : ¬ st₂.pos < total_steps := hpos ▸ hlt
      rw [generate_loop_exit M₁ tokens tokens.length total_steps f hlt,
        generate_loop_exit M₂ tokens tokens.length total_steps f hlt₂]
      exact ⟨hpos, hw, rfl⟩

/-- C15 as stated fails.  The engines `toyModel` and `toyModelStop` have the same
tokenizer, detokenizer and sentence terminator, and return the same token on every call
in DECODE mode; they differ only in what they return in PROMPT mode.  On the 3-token
prompt `"abc"` with `total_steps = 10` the first run returns 2 steps and the output
token 7, the second, whose prediction at position 0 is a sentence terminator, returns 0
steps and no output token. -/
theorem generate_prompt_dependent_counterexample :
    toyModel.encode = toyModelStop.encode ∧ toyModel.decode = toyModelStop.decode ∧
      toyModel.is_sentence_ending = toyModelStop.is_sentence_ending ∧
      (∀ eng toks pos next,
        toyModel.predict eng toks pos false next = toyModelStop.predict eng toks pos false next) ∧
      (generate toyModel 0 "abc".toList 10).words = [7] ∧
      (generate toyModelStop 0 "abc".toList 10).words = [] ∧
      (generate toyModel 0 "abc".toList 10).result = .ok (2, "ok".toList) ∧
      (generate toyModelStop 0 "abc".toList 10).result = .ok (0, "ok".toList) :=
  ⟨rfl, rfl, rfl, fun _ _ _ _ => rfl, by decide, by decide, rfl, rfl⟩

/-- C15, amended. Two runs of `generate` on the same tokenization with the same
`total_steps` and the same sentence terminators, in which the predictions made at the
same position are equal in DECODE mode and are both or neither sentence terminators in
PROMPT mode, end with the same `words` and return the same step count (or both end in
the fatal empty-prompt condition). -/
theorem generate_prompt_independent {σ₁ σ₂ : Type} (M₁ : Qwen3Model σ₁) (M₂ : Qwen3Model σ₂)
    (engine₁ : σ₁) (engine₂ : σ₂) (sentence : Str) (total_steps : Int)
    (henc : M₁.encode sentence = M₂.encode sentence)
    (hend : M₁.is_sentence_ending = M₂.is_sentence_ending)
    (hdecode : ∀ c₁ ∈ (generate M₁ engine₁ sentence total_steps).calls,
      ∀ c₂ ∈ (generate M₂ engine₂ sentence total_steps).calls,
        c₁.pos = c₂.pos → c₁.is_prompt = false → c₁.next_out = c₂.next_out)
    (hprompt : ∀ c₁ ∈ (generate M₁ engine₁ sentence total_steps).calls,
      ∀ c₂ ∈ (generate M₂ engine₂ sentence total_steps).calls,
        c₁.pos = c₂.pos → c₁.is_prompt = true →
          M₁.is_sentence_ending c₁.next_out = M₂.is_sentence_ending c₂.next_out) :
    (generate M₁ engine₁ sentence total_steps).words
        = (generate M₂ engine₂ sentence total_steps).words ∧
      (generate M₁ engine₁ sentence total_steps).result.map Prod.fst
        = (generate M₂ engine₂ sentence total_steps).result.map Prod.fst := by
  cases h : M₁.encode sentence with
  | nil =>
    rw [generate_empty M₁ engine₁ sentence total_steps h,
      generate_empty M₂ engine₂ sentence total_steps (henc ▸ h)]
    exact ⟨rfl, rfl⟩
  | cons t ts =>
    obtain ⟨text₁, -, e₁⟩ := generate_run M₁ engine₁ sentence total_steps t ts h
    obtain ⟨text₂, -, e₂⟩ := generate_run M₂ engine₂ sentence total_steps t ts (henc ▸ h)
    rw [e₁, e₂] at hdecode hprompt ⊢
    simp only [] at hdecode hprompt ⊢
    obtain ⟨hp, hw, -⟩ := generate_loop_sim M₁ M₂ (t :: ts) total_steps hend
      (total_steps.toNat + 1) (start_state engine₁ (t :: ts) t)
      (start_state engine₂ (t :: ts) t) (start_state_inv engine₁ (t :: ts) t)
      (start_state_inv engine₂ (t :: ts) t) rfl rfl rfl rfl hdecode hprompt
    refine ⟨hw, ?_⟩
    simp only [Except.map, hp]

/-- The theorem `generate_prompt_independent` for the toy engines `toyModel` and
`toyModelOther`, which predict different tokens in PROMPT mode, none of them a sentence
terminator, on the prompt `"abc"` with `total_steps = 10`. -/
theorem generate_prompt_independent_witness :
    (generate toyModel 0 "abc".toList 10).calls.map PredictCall.next_out = [100, 101, 7] ∧
      (generate toyModelOther 0 "abc".toList 10).calls.map PredictCall.next_out
        = [200, 202, 7] ∧
      (generate toyModel 0 "abc".toList 10).words
        = (generate toyModelOther 0 "abc".toList 10).words ∧
      (generate toyModel 0 "abc".toList 10).result.map Prod.fst
        = (generate toyModelOther 0 "abc".toList 10).result.map Prod.fst :=
  ⟨by decide, by decide,
    generate_prompt_independent toyModel toyModelOther 0 0 "abc".toList 10 rfl rfl
      (by decide) (by decide)⟩

/-! ## The session: what is stored in the history -/

/-- The text that `generate` stores through `output_text` is the scrub of the decoded
`words`. -/
theorem generate_result_text {σ : Type} (M : Qwen3Model σ) (engine : σ) (sentence : Str)
    (total_steps : Int) (steps : Int) (text : Str)
    (h : (generate M engine sentence total_steps).result = .ok (steps, text)) :
    filter_think_tags (M.decode (generate M engine sentence total_steps).words)
      = some text := by
  cases he : M.encode sentence with
  | nil =>
    rw [generate_empty M engine sentence total_steps he] at h
    cases h
  | cons t ts =>
    obtain ⟨text2, htext, e⟩ := generate_run M engine sentence total_steps t ts he
    rw [e] at h ⊢
    simp only [] at h ⊢
    have : text2 = text := by
      have := Except.ok.inj h
      exact (Prod.mk.inj this).2
    rw [← this]
    exact htext

theorem mem_commit {h : List (Str × Str)} {t turn : Str × Str} (hm : turn ∈ commit h t) :
    turn ∈ h ∨ turn = t := by
  rw [commit_eq] at hm
  split at hm
  · simpa using hm
  · simpa using List.mem_of_mem_tail hm

theorem main_step_filtered {σ : Type} (M : Qwen3Model σ) (s s2 : Session σ) (user_input : Str)
    (hs : ∀ turn ∈ s.conversation_history, TurnFiltered M turn)
    (h : main_step M s user_input = some s2) :
    ∀ turn ∈ s2.conversation_history, TurnFiltered M turn := by
  unfold main_step at h
  split at h
  · cases h
  · split at h
    · cases h
      intro turn hm
      simp [clear] at hm
    · simp only [] at h
      split at h
      · cases h
      · rename_i steps assistant_response hres
        cases h
        intro turn hm
        rcases mem_commit hm with hm | rfl
        · exact hs turn hm
        · exact ⟨s.engine, s.conversation_history, steps, hres,
            generate_result_text M s.engine _ 2560 steps assistant_response hres⟩

theorem main_loop_filtered {σ : Type} (M : Qwen3Model σ) (inputs : List Str) :
    ∀ (s s2 : Session σ), (∀ turn ∈ s.conversation_history, TurnFiltered M turn) →
      main_loop M inputs s = some s2 →
      ∀ turn ∈ s2.conversation_history, TurnFiltered M turn := by
  induction inputs with
  | nil =>
    intro s s2 hs h
    cases h
    exact hs
  | cons x xs ih =>
    intro s s2 hs h
    unfold main_loop at h
    split at h
    · cases h
    · rename_i s1 h1
      exact ih s1 s2 (main_step_filtered M s s1 x hs h1) h

/-- C13. In every session state reached from the empty history, each turn of the history
holds as assistant text the text that a call of `generate` stored through `output_text`:
the scrub of the decoded output tokens of that call, made on the prompt rendered for the
turn's user text; that text has no open marker. -/
theorem main_loop_history_filtered {σ : Type} (M : Qwen3Model σ) (engine : σ)
    (inputs : List Str) (s : Session σ)
    (h : main_loop M inputs { conversation_history := [], engine := engine } = some s) :
    ∀ turn ∈ s.conversation_history,
      (∃ (eng : σ) (history : List (Str × Str)) (steps : Int),
        (generate M eng (build_conversation history turn.1) 2560).result
          = .ok (steps, turn.2) ∧
        filter_think_tags
          (M.decode (generate M eng (build_conversation history turn.1) 2560).words)
          = some turn.2) ∧
      ¬ THINK_OPEN <:+: turn.2 := by
  intro turn hm
  have ht := main_loop_filtered M inputs _ s (fun t ht => by simp at ht) h turn hm
  refine ⟨ht, ?_⟩
  obtain ⟨eng, history, steps, -, hf⟩ := ht
  obtain ⟨r, hr, hn⟩ := filter_think_tags_total
    (M.decode (generate M eng (build_conversation history turn.1) 2560).words)
  rw [hf] at hr
  cases hr
  exact (find_eq_none_iff _ _).1 hn

/-- The theorem `main_loop_history_filtered` for the toy engine and the one input line
`"hi"`: the session then holds the turn `("hi", "ok")`. -/
theorem main_loop_history_filtered_witness :
    main_loop toyModel ["hi".toList] { conversation_history := [], engine := 0 }
        = some { conversation_history := [("hi".toList, "ok".toList)], engine := 52 } ∧
      ∀ turn ∈ [("hi".toList, "ok".toList)],
        (∃ (eng : Nat) (history : List (Str × Str)) (steps : Int),
          (generate toyModel eng (build_conversation history turn.1) 2560).result
            = .ok (steps, turn.2) ∧
          filter_think_tags
            (toyModel.decode
              (generate toyModel eng (build_conversation history turn.1) 2560).words)
            = some turn.2) ∧
        ¬ THINK_OPEN <:+: turn.2 :=
  ⟨rfl,
    main_loop_history_filtered toyModel 0 ["hi".toList]
      { conversation_history := [("hi".toList, "ok".toList)], engine := 52 } rfl⟩

/-! ## The token count as `int32_t` -/

theorem to_int32_of_lt {n : Nat} (h : n < 2 ^ 31) : to_int32 n = (n : Int) := by
  unfold to_int32
  omega

theorem to_int32_le (n : Nat) : to_int32 n ≤ (n : Int) := by
  unfold to_int32
  omega

/-- For a prompt of less than `2 ^ 31` tokens the two embeddings of `generate` agree. -/
theorem generate_int32_eq {σ : Type} (M : Qwen3Model σ) (engine : σ) (sentence : Str)
    (total_steps : Int) (h : (M.encode sentence).length < 2 ^ 31) :
    generate_int32 M engine sentence total_steps = generate M engine sentence total_steps := by
  simp only [generate_int32, generate, to_int32_of_lt h]

section loop_le
variable {σ : Type} (M : Qwen3Model σ) (prompt_tokens : List Int) (prompt_len : Int)
  (total_steps : Int)

/-- The lemma `advance_ok` for a `prompt_len` that is at most the token count. -/
theorem advance_ok_le {st : GenState σ} (hlen : prompt_len ≤ prompt_tokens.length)
    (h : GenInv prompt_tokens prompt_len st) :
    ∃ st2, advance (predict_step M prompt_tokens prompt_len st) = .ok st2 ∧
      st2.pos = st.pos + 1 ∧ GenInv prompt_tokens prompt_len st2 := by
  have h1 := predict_step_inv M prompt_tokens prompt_len h
  have hpos := predict_step_pos M prompt_tokens prompt_len st
  unfold advance
  cases hb : (predict_step M prompt_tokens prompt_len st).is_prompt with
  | true =>
    obtain ⟨hlt, -⟩ := predict_step_is_prompt M prompt_tokens prompt_len hb
    have ht := h1.tokens_eq hb
    obtain ⟨x, hx⟩ := vector_at_ok prompt_tokens (st.pos + 1)
      (by have := h.pos_nonneg; omega) (by omega)
    simp only [if_true, ht, hpos, hx]
    refine ⟨_, rfl, rfl, ?_⟩
    exact ⟨by have := h.pos_nonneg; simp only []; omega, fun _ => rfl,
      fun hf => by simp at hf, h1.words_eq, h1.calls_phase⟩
  | false =>
    simp only [Bool.false_eq_true, if_false, hpos]
    refine ⟨_, rfl, rfl, ?_⟩
    have := h1.decode_pos hb
    exact ⟨by have := h.pos_nonneg; simp only []; omega,
      fun hf => by simp at hf,
      fun _ => by simp only []; omega, h1.words_eq, h1.calls_phase⟩

/-- The lemma `generate_loop_ok` for a `prompt_len` that is at most the token count. -/
theorem generate_loop_ok_le (hlen : prompt_len ≤ prompt_tokens.length) (fuel : Nat)
    (st : GenState σ) (h : GenInv prompt_tokens prompt_len st)
    (hfuel : (total_steps - st.pos).toNat < fuel) :
    (generate_loop M prompt_tokens prompt_len total_steps fuel st).2 = none ∧
      GenInv prompt_tokens prompt_len
        (generate_loop M prompt_tokens prompt_len total_steps fuel st).1 :=
  generate_loop_induct M prompt_tokens prompt_len total_steps
    (GenInv prompt_tokens prompt_len)
    (fun fin => fin.2 = none ∧ GenInv prompt_tokens prompt_len fin.1)
    (fun _ h _ => ⟨rfl, h⟩)
    (fun _ h _ _ => ⟨rfl, predict_step_inv M prompt_tokens prompt_len h⟩)
    (fun _ h _ _ => advance_ok_le M prompt_tokens prompt_len hlen h)
    fuel st h hfuel

end loop_le

theorem start_state_inv_any {σ : Type} (engine : σ) (tokens : List Int) (next : Int)
    (prompt_len : Int) : GenInv tokens prompt_len (start_state engine tokens next) := by
  refine ⟨le_refl _, fun _ => rfl, fun hf => by simp [start_state] at hf, rfl, ?_⟩
  intro c hc
  simp [start_state] at hc

/-- For a non-empty tokenization `generate_int32` returns: its outcome is the state in
which the loop is left, with the step count `min pos total_steps` and the scrubbed
text. -/
theorem generate_int32_run {σ : Type} (M : Qwen3Model σ) (engine : σ) (sentence : Str)
    (total_steps : Int) (t : Int) (ts : List Int) (h : M.encode sentence = t :: ts) :
    ∃ text,
      generate_int32 M engine sentence total_steps =
        { result := .ok (min (generate_loop M (t :: ts) (to_int32 (t :: ts).length) total_steps
              (total_steps.toNat + 1) (start_state engine (t :: ts) t)).1.pos total_steps, text)
          words := (generate_loop M (t :: ts) (to_int32 (t :: ts).length) total_steps
              (total_steps.toNat + 1) (start_state engine (t :: ts) t)).1.words
          engine := (generate_loop M (t :: ts) (to_int32 (t :: ts).length) total_steps
              (total_steps.toNat + 1) (start_state engine (t :: ts) t)).1.engine
          calls := (generate_loop M (t :: ts) (to_int32 (t :: ts).length) total_steps
              (total_steps.toNat + 1) (start_state engine (t :: ts) t)).1.calls } := by
  have hok := generate_loop_ok_le M (t :: ts) (to_int32 (t :: ts).length) total_steps
    (to_int32_le _) (total_steps.toNat + 1) (start_state engine (t :: ts) t)
    (start_state_inv_any engine (t :: ts) t _) (by simp [start_state])
  obtain ⟨text, htext, -⟩ := filter_think_tags_total
    (M.decode (generate_loop M (t :: ts) (to_int32 (t :: ts).length)
        total_steps (total_steps.toNat + 1) (start_state engine (t :: ts) t)).1.words)
  refine ⟨text, ?_⟩
  have hv : vector_at (t :: ts) 0 = .ok t := rfl
  unfold generate_int32
  simp only [h, List.isEmpty_cons, Bool.false_eq_true, if_false, hv, hok.1, htext]

theorem generate_int32_empty {σ : Type} (M : Qwen3Model σ) (engine : σ) (sentence : Str)
    (total_steps : Int) (h : M.encode sentence = []) :
    generate_int32 M engine sentence total_steps
      = { result := .error .empty_tokens, words := [], engine := engine, calls := [] } := by
  simp [generate_int32, h]

/-! ## Output tokens, teacher forcing and the output bound, with the token count as `int32_t` -/

/-- C10. The vector `words` at the end of `generate` is the sequence of the tokens that
the `predict` calls made in DECODE mode returned, in call order, without the identifiers
151645 and 151644: no token predicted in PROMPT mode is in `words` as such, and neither
sentinel is in `words`.  This holds for every prompt, whatever its token count.  For a
prompt of less than `2 ^ 31` tokens the calls made in DECODE mode are those at the
positions from `prompt_len - 1` on. -/
theorem generate_int32_words {σ : Type} (M : Qwen3Model σ) (engine : σ) (sentence : Str)
    (total_steps : Int) :
    (generate_int32 M engine sentence total_steps).words
        = (((generate_int32 M engine sentence total_steps).calls.filter
              (fun c => !c.is_prompt)).map PredictCall.next_out).filter
            (fun t => decide (t ≠ 151645 ∧ t ≠ 151644)) ∧
      (151645 : Int) ∉ (generate_int32 M engine sentence total_steps).words ∧
      (151644 : Int) ∉ (generate_int32 M engine sentence total_steps).words ∧
      ((M.encode sentence).length < 2 ^ 31 →
        ∀ c ∈ (generate_int32 M engine sentence total_steps).calls,
          (c.is_prompt = false ↔ ((M.encode sentence).length : Int) - 1 ≤ c.pos)) := by
  have key : (generate_int32 M engine sentence total_steps).words
        = decode_words (generate_int32 M engine sentence total_steps).calls ∧
      (∀ c ∈ (generate_int32 M engine sentence total_steps).calls,
        (c.is_prompt = true ↔ c.pos < to_int32 (M.encode sentence).length - 1)) := by
    cases h : M.encode sentence with
    | nil =>
      rw [generate_int32_empty M engine sentence total_steps h]
      simp [decode_words]
    | cons t ts =>
      obtain ⟨text, e⟩ := generate_int32_run M engine sentence total_steps t ts h
      have hinv := (generate_loop_ok_le M (t :: ts) (to_int32 (t :: ts).length) total_steps
        (to_int32_le _) (total_steps.toNat + 1) (start_state engine (t :: ts) t)
        (start_state_inv_any engine (t :: ts) t _) (by simp [start_state])).2
      rw [e]
      exact ⟨hinv.words_eq, hinv.calls_phase⟩
  refine ⟨key.1, ?_, ?_, ?_⟩
  · rw [key.1]
    simp [decode_words]
  · rw [key.1]
    simp [decode_words]
  · intro hlen c hc
    have := key.2 c hc
    rw [to_int32_of_lt hlen] at this
    constructor
    · intro hf
      by_contra hlt
      have := this.2 (by omega)
      simp [hf] at this
    · intro hge
      cases hb : c.is_prompt with
      | false => rfl
      | true => have := this.1 hb; omega

theorem toyModelLong_encode (sentence : Str) :
    toyModelLong.encode sentence = 1 :: List.replicate (2 ^ 31) 5 := rfl

theorem toyModelLong_prompt_len :
    to_int32 (1 :: List.replicate (2 ^ 31) (5 : Int)).length = -(2 ^ 31) + 1 := by
  rw [List.length_cons, List.length_replicate]
  unfold to_int32
  norm_num

/-- A run in which the converted token count is at most 1 and the prediction on the
first prompt token in DECODE mode is a sentence terminator: the first iteration takes the
DECODE branch at position 0 and the loop is left by `break`. -/
theorem generate_int32_decode_first {σ : Type} (M : Qwen3Model σ) (engine : σ)
    (sentence : Str) (total_steps : Int) (t : Int) (ts : List Int)
    (h : M.encode sentence = t :: ts) (hwrap : to_int32 (t :: ts).length ≤ 1)
    (htotal : 0 < total_steps)
    (hend : M.is_sentence_ending (M.predict engine [t] 0 false t).1 = true) :
    (generate_int32 M engine sentence total_steps).calls
        = [⟨0, false, [t], t, (M.predict engine [t] 0 false t).1⟩] ∧
      (generate_int32 M engine sentence total_steps).words
        = (if (M.predict engine [t] 0 false t).1 ≠ 151645 ∧
              (M.predict engine [t] 0 false t).1 ≠ 151644
            then [(M.predict engine [t] 0 false t).1] else []) := by
  obtain ⟨text, e⟩ := generate_int32_run M engine sentence total_steps t ts h
  rw [e]
  simp only []
  generalize to_int32 (t :: ts).length = prompt_len at hwrap ⊢
  generalize htk : t :: ts = tokens
  have hp0 : (start_state engine tokens t).pos = 0 := rfl
  have hnlt : ¬ (start_state engine tokens t).pos < prompt_len - 1 := by
    rw [hp0]; omega
  have hnext : (predict_step M tokens prompt_len (start_state engine tokens t)).next
      = (M.predict engine [t] 0 false t).1 := by
    simp only [predict_step, hnlt, if_false]
    rfl
  obtain ⟨hc, hw, -⟩ := predict_step_decode M tokens prompt_len hnlt
  rw [generate_loop_break M tokens prompt_len total_steps total_steps.toNat
    (by rw [hp0]; exact htotal) (by rw [hnext]; exact hend)]
  simp only []
  rw [hc, hw, hnext]
  exact ⟨rfl, by split <;> rfl⟩

theorem toyModelLong_predict :
    (toyModelLong.predict 0 [1] 0 false 1).1 = 7 := rfl

/-- The run of `generate` with the engine `toyModelLong`, whose prompts have `2 ^ 31 + 1`
tokens, and `total_steps = 10`: `prompt_len` is `-(2 ^ 31) + 1`, the first iteration
takes the DECODE branch at position 0 on the first prompt token and the loop is left by
`break` on its prediction 7. -/
theorem generate_int32_toyModelLong (sentence : Str) :
    (generate_int32 toyModelLong 0 sentence 10).calls = [⟨0, false, [1], 1, 7⟩] ∧
      (generate_int32 toyModelLong 0 sentence 10).words = [7] := by
  have h := generate_int32_decode_first toyModelLong 0 sentence 10 1
    (List.replicate (2 ^ 31) 5) (toyModelLong_encode sentence)
    (by rw [toyModelLong_prompt_len]; norm_num) (by norm_num)
    (by rw [toyModelLong_predict]; rfl)
  rw [toyModelLong_predict] at h
  exact ⟨h.1, h.2⟩

/-- C16 as stated fails for a prompt whose token count does not fit `int32_t`.  With
the engine `toyModelLong` the prompt has `2 ^ 31 + 1` tokens, the first one `1` and the
last one `5`; `prompt_len` wraps to a negative value, so the only call of the run with
`total_steps = 10` is a DECODE call at position 0, not at position `2 ^ 31`, and the token
it embeds is the first prompt token `1`, not the last one. -/
theorem generate_int32_teacher_forcing_counterexample :
    (toyModelLong.encode []).length = 2 ^ 31 + 1 ∧
      (toyModelLong.encode [])[0]? = some 1 ∧
      (toyModelLong.encode [])[2 ^ 31]? = some 5 ∧
      (generate_int32 toyModelLong 0 [] 10).calls = [⟨0, false, [1], 1, 7⟩] := by
  refine ⟨?_, ?_, ?_, (generate_int32_toyModelLong []).1⟩
  · rw [toyModelLong_encode, List.length_cons, List.length_replicate]
  · rw [toyModelLong_encode, List.getElem?_cons_zero]
  · rw [toyModelLong_encode]
    have e : (2 : Nat) ^ 31 = (2 ^ 31 - 1) + 1 := by norm_num
    rw [e, List.getElem?_cons_succ, List.getElem?_replicate]
    norm_num

/-- C16, amended. Teacher forcing for a prompt of less than `2 ^ 31` tokens, read off the
log of the `predict` calls of a run: the call with index `i` is made at position `i`; up
to the last prompt position it is given the prompt token `tokens[i]` as candidate,
whatever the calls before returned, and from the position after that the prediction of
the call before; a call in DECODE mode embeds just the candidate it is given, so the
first one embeds the last prompt token, and a call in PROMPT mode embeds the prompt. -/
theorem generate_int32_teacher_forcing {σ : Type} (M : Qwen3Model σ) (engine : σ)
    (sentence : Str) (total_steps : Int) (hlen : (M.encode sentence).length < 2 ^ 31)
    (i : Nat) (c : PredictCall) :
    (generate_int32 M engine sentence total_steps).calls[i]? = some c →
      c.pos = (i : Int) ∧
      (c.is_prompt = true ↔ (i : Int) < ((M.encode sentence).length : Int) - 1) ∧
      (c.is_prompt = true → c.tokens = M.encode sentence) ∧
      (c.is_prompt = false → c.tokens = [c.next_in]) ∧
      ((i : Int) ≤ ((M.encode sentence).length : Int) - 1 →
        (M.encode sentence)[i]? = some c.next_in) ∧
      (((M.encode sentence).length : Int) - 1 < (i : Int) →
        ∃ prev, (generate_int32 M engine sentence total_steps).calls[i - 1]? = some prev ∧
          c.next_in = prev.next_out) := by
  rw [generate_int32_eq M engine sentence total_steps hlen]
  cases h : M.encode sentence with
  | nil =>
    rw [generate_empty M engine sentence total_steps h]
    intro hc
    simp at hc
  | cons t ts =>
    obtain ⟨text, -, e⟩ := generate_run M engine sentence total_steps t ts h
    have F := generate_final M engine t ts total_steps
    rw [e]
    exact F.log i c

/-- The theorem `generate_int32_teacher_forcing` for the toy engine on the prompt `"abc"`
(tokens 97, 98, 99), at the call with index 2: the first call in DECODE mode, which is
given and embeds the last prompt token 99. -/
theorem generate_int32_teacher_forcing_witness :
    (toyModel.encode "abc".toList).length < 2 ^ 31 ∧
      (generate_int32 toyModel 0 "abc".toList 10).calls[2]?
        = some ⟨2, false, [99], 99, 7⟩ ∧
      (toyModel.encode "abc".toList)[2]? = some 99 :=
  ⟨by decide, by decide,
    (generate_int32_teacher_forcing toyModel 0 "abc".toList 10 (by decide) 2
      ⟨2, false, [99], 99, 7⟩ (by decide)).2.2.2.2.1 (by decide)⟩

/-- C19 as stated fails for a prompt whose token count does not fit `int32_t`.  With
the engine `toyModelLong` the prompt has `2 ^ 31 + 1` tokens and `total_steps` is 10, so
the bound `max 0 (total_steps - (prompt_length - 1))` is 0; `prompt_len` wraps to a
negative value, the first step is a DECODE step, and `words` holds its prediction 7. -/
theorem generate_int32_words_length_counterexample :
    (toyModelLong.encode []).length = 2 ^ 31 + 1 ∧
      (generate_int32 toyModelLong 0 [] 10).words = [7] ∧
      max (0 : Int) (10 - (((toyModelLong.encode []).length : Int) - 1)) = 0 ∧
      ¬ ((generate_int32 toyModelLong 0 [] 10).words.length : Int)
          ≤ max 0 (10 - (((toyModelLong.encode []).length : Int) - 1)) := by
  have hl : (toyModelLong.encode []).length = 2 ^ 31 + 1 := by
    rw [toyModelLong_encode, List.length_cons, List.length_replicate]
  have hw := (generate_int32_toyModelLong []).2
  refine ⟨hl, hw, ?_, ?_⟩
  · rw [hl]
    norm_num
  · rw [hl, hw]
    norm_num

/-- C19, amended. For a prompt of less than `2 ^ 31` tokens the vector `words` has at
most `max 0 (total_steps - (prompt_len - 1))` elements; when
`total_steps ≤ prompt_len - 1` it is empty. -/
theorem generate_int32_words_length {σ : Type} (M : Qwen3Model σ) (engine : σ)
    (sentence : Str) (total_steps : Int) (hlen : (M.encode sentence).length < 2 ^ 31) :
    ((generate_int32 M engine sentence total_steps).words.length : Int)
        ≤ max 0 (total_steps - (((M.encode sentence).length : Int) - 1)) ∧
      (total_steps ≤ ((M.encode sentence).length : Int) - 1 →
        (generate_int32 M engine sentence total_steps).words = []) := by
  rw [generate_int32_eq M engine sentence total_steps hlen]
  have key : ((generate M engine sentence total_steps).words.length : Int)
      ≤ max 0 (total_steps - (((M.encode sentence).length : Int) - 1)) := by
    cases h : M.encode sentence with
    | nil =>
      rw [generate_empty M engine sentence total_steps h]
      simp
    | cons t ts =>
      obtain ⟨text, -, e⟩ := generate_run M engine sentence total_steps t ts h
      have F := generate_final M engine t ts total_steps
      rw [e]
      exact F.words_len
  refine ⟨key, fun hle => ?_⟩
  have : (generate M engine sentence total_steps).words.length = 0 := by omega
  exact List.length_eq_zero.1 this

/-- The theorem `generate_int32_words_length` for the toy engine on the 3-token prompt
`"abc"`: with `total_steps = 10` one token is produced, with `total_steps = 2` none. -/
theorem generate_int32_words_length_witness :
    (toyModel.encode "abc".toList).length < 2 ^ 31 ∧
      (generate_int32 toyModel 0 "abc".toList 10).words = [7] ∧
      (generate_int32 toyModel 0 "abc".toList 2).words = [] ∧
      ((generate_int32 toyModel 0 "abc".toList 10).words.length : Int)
        ≤ max 0 (10 - (((toyModel.encode "abc".toList).length : Int) - 1)) :=
  ⟨by decide, by decide,
    (generate_int32_words_length toyModel 0 "abc".toList 2 (by decide)).2 (by decide),
    (generate_int32_words_length toyModel 0 "abc".toList 10 (by decide)).1⟩

end TinyLLama
